import Mathlib

/-!
# Key-value store: storage engine, snapshot file, worker dispatch and client

A shallow embedding of `storage.c`, of the request dispatch of `server.c` and of
the three operations of `client.c`.

Conventions of the embedding.

* A byte is a `Nat`; `0` is the NUL terminator, `44` the comma, `10` the newline.
* A `char` array is the list of its bytes.  A `const char*` argument is the list
  of the bytes found at the pointer; every C library routine reads it up to its
  first NUL (`cstr`), so the list `[97, 98]` and the list `[97, 98, 0, 7]` denote
  the same C string "ab".
* An array that the C code leaves uninitialised (a local buffer, the caller's
  output buffer) is a parameter holding its previous contents.
* The per-slot mutexes are acquired and released inside every operation and have
  no effect on a sequential run; they are not part of the state.
* Pointers are never NULL (every caller passes an array), so the NULL tests that
  open the C functions are not embedded.
* The backup file is its content, a list of bytes; `none` stands for a file that
  cannot be opened.
* The socket calls of the client are what they return (`Transfers`); `remote_put`
  and `remote_get` join a client operation to the worker's dispatch over a
  connection that transfers every frame, status and value array whole.
* `polySum` and `loadSpec` are not taken from the code: they state the hash and
  the load in the words of the specification, to be compared with `hashVal` and
  `kv_store_load`.
-/

namespace KvStore

/-! ## Configuration (`kv_store.h`) -/

/-- Size of a key array. -/
def MAX_KEY_SIZE : Nat := 32

/-- Size of a value array. -/
def MAX_VALUE_SIZE : Nat := 256

/-- Number of slots of the table. -/
def TABLE_SIZE : Nat := 1024

/-- Error codes, in the order of the C enumeration. -/
inductive kv_error_t where
  | KV_SUCCESS
  | KV_ERROR_NOT_FOUND
  | KV_ERROR_NO_SPACE
  | KV_ERROR_INVALID_KEY
  | KV_ERROR_NETWORK
deriving DecidableEq, Repr

open kv_error_t

/-- Storage entry: a 32-byte key array, a 256-byte value array and the flag. -/
structure kv_entry_t where
  key : List Nat
  value : List Nat
  is_occupied : Bool
deriving DecidableEq, Repr

/-- The table: exactly `TABLE_SIZE` entries. -/
abbrev kv_store_t := Fin TABLE_SIZE → kv_entry_t

/-! ## C string routines -/

/-- The C string found at a pointer: the bytes before the first NUL. -/
def cstr (p : List Nat) : List Nat := p.takeWhile (fun c => c ≠ 0)

/-- Length of the C string at a pointer. -/
def strlen (p : List Nat) : Nat := (cstr p).length

/-- Result of `strncpy(dst, src, n)`: the first `n` bytes of `dst` become the
string at `src`, cut at `n` bytes or padded with NULs up to `n` bytes; the bytes
of `dst` from index `n` on are kept.  No terminator is written when the source
has `n` bytes or more. -/
def strncpy (dst src : List Nat) (n : Nat) : List Nat :=
  (cstr src ++ List.replicate n 0).take n ++ dst.drop n

/-- Result of `strcmp`: zero exactly when the two C strings are equal. -/
def strcmp (a b : List Nat) : Int :=
  if cstr a = cstr b then 0 else if cstr a < cstr b then -1 else 1

/-- Result of `strcspn(p, "\n")`: the number of bytes before the first newline
or NUL. -/
def strcspn_nl (p : List Nat) : Nat := (p.takeWhile (fun c => c ≠ 0 ∧ c ≠ 10)).length

/-! ## Hash (`storage.c`, `hash`) -/

/-- Value of a `char` converted to `unsigned int`; `char` is signed, so a byte
of 128 or more is sign-extended. -/
def charToUInt (c : Nat) : Nat := if c < 128 then c else c + (2 ^ 32 - 256)

/-- The loop of `hash`: `hash = (hash * 31) + *key` in 32-bit unsigned
arithmetic, until the NUL. -/
def hashLoop : List Nat → Nat → Nat
  | [], h => h
  | c :: cs, h => if c = 0 then h else hashLoop cs ((h * 31 + charToUInt c) % 2 ^ 32)

/-- The value `hash(key)` of the C function. -/
def hashVal (key : List Nat) : Nat := hashLoop key 0 % TABLE_SIZE

/-- The slot index `hash(key)`. -/
def hash (key : List Nat) : Fin TABLE_SIZE := ⟨hashVal key, Nat.mod_lt _ (by decide)⟩

/-! ## Store operations (`storage.c`) -/

/-- The table after `memset(store->entries, 0, ...)`. -/
def emptyStore : kv_store_t :=
  fun _ => ⟨List.replicate MAX_KEY_SIZE 0, List.replicate MAX_VALUE_SIZE 0, false⟩

/-- Embedding of `kv_store_put`: status and store afterwards. -/
def kv_store_put (store : kv_store_t) (key value : List Nat) : kv_error_t × kv_store_t :=
  if strlen key ≥ MAX_KEY_SIZE then (KV_ERROR_INVALID_KEY, store)
  else
    let index := hash key
    let e := store index
    (KV_SUCCESS, Function.update store index
      ⟨strncpy e.key key (MAX_KEY_SIZE - 1), strncpy e.value value (MAX_VALUE_SIZE - 1), true⟩)

/-- Embedding of `kv_store_get`: status, store afterwards and the caller's
output array afterwards (`value` is that array before the call). -/
def kv_store_get (store : kv_store_t) (key value : List Nat) :
    kv_error_t × kv_store_t × List Nat :=
  let index := hash key
  if (store index).is_occupied = false ∨ strcmp (store index).key key ≠ 0 then
    (KV_ERROR_NOT_FOUND, store, value)
  else
    (KV_SUCCESS, store, strncpy value (store index).value (MAX_VALUE_SIZE - 1))

/-- Embedding of `kv_store_delete`: status and store afterwards. -/
def kv_store_delete (store : kv_store_t) (key : List Nat) : kv_error_t × kv_store_t :=
  let index := hash key
  if (store index).is_occupied = false ∨ strcmp (store index).key key ≠ 0 then
    (KV_ERROR_NOT_FOUND, store)
  else
    (KV_SUCCESS, Function.update store index ⟨(store index).key, (store index).value, false⟩)

/-! ## Snapshot file (`storage.c`, `kv_store_save` and `kv_store_load`) -/

/-- Output of `fprintf(fp, "%s,%s\n", key, value)` for one entry; nothing for an
unoccupied entry. -/
def entryLine (e : kv_entry_t) : List Nat :=
  if e.is_occupied then cstr e.key ++ [44] ++ cstr e.value ++ [10] else []

/-- Embedding of `kv_store_save`: the text written to the backup file, one line
per occupied slot in index order. -/
def kv_store_save (store : kv_store_t) : List Nat :=
  (List.finRange TABLE_SIZE).flatMap (fun i => entryLine (store i))

/-- Reads at most `n` bytes of the stream, stopping after a newline: the bytes
read and the rest of the stream. -/
def fgetsAux : Nat → List Nat → List Nat × List Nat
  | 0, stream => ([], stream)
  | _ + 1, [] => ([], [])
  | n + 1, c :: cs =>
    if c = 10 then ([c], cs) else ((fgetsAux n cs).1.cons c, (fgetsAux n cs).2)

/-- Result of `fgets(line, size, fp)`: `none` at end of file, else the line read
(at most `size - 1` bytes) and the rest of the stream. -/
def fgets (size : Nat) (stream : List Nat) : Option (List Nat × List Nat) :=
  if stream = [] then none else some (fgetsAux (size - 1) stream)

/-- Result of `strchr(p, c)` as an offset: the position of the first `c` in the
C string at `p`, if any. -/
def strchr (p : List Nat) (c : Nat) : Option Nat :=
  if c ∈ cstr p then some ((cstr p).indexOf c) else none

/-- Body of the loop of `kv_store_load` for one line.  `key` and `value` are the
local arrays before the iteration; the store and the arrays afterwards are
returned. -/
def loadLine (store : kv_store_t) (key value line : List Nat) :
    kv_store_t × List Nat × List Nat :=
  match strchr line 44 with
  | none => (store, key, value)
  | some comma =>
    let line1 := line.set comma 0
    let key1 := strncpy key line1 (MAX_KEY_SIZE - 1)
    let value1 := strncpy value (line1.drop (comma + 1)) (MAX_VALUE_SIZE - 1)
    let value2 := value1.set (strcspn_nl value1) 0
    ((kv_store_put store key1 value2).2, key1, value2)

/-- The `while (fgets(...))` loop of `kv_store_load`.  Every iteration consumes
at least one byte of the stream, so a fuel of the stream length is enough. -/
def loadLoop : Nat → kv_store_t → List Nat → List Nat → List Nat → kv_store_t
  | 0, store, _, _, _ => store
  | fuel + 1, store, key, value, stream =>
    match fgets (MAX_KEY_SIZE + MAX_VALUE_SIZE + 2) stream with
    | none => store
    | some (line, rest) =>
      let r := loadLine store key value line
      loadLoop fuel r.1 r.2.1 r.2.2 rest

/-- Embedding of `kv_store_load`.  `file` is the content of the backup file
(`none` when it cannot be opened); `key` and `value` are the contents of the
two local arrays before the first iteration. -/
def kv_store_load (store : kv_store_t) (file : Option (List Nat)) (key value : List Nat) :
    kv_store_t :=
  match file with
  | none => store
  | some text => loadLoop text.length store key value text

/-- Embedding of `kv_store_create`: the zeroed table, then the load. -/
def kv_store_create (file : Option (List Nat)) (key value : List Nat) : kv_store_t :=
  kv_store_load emptyStore file key value

/-! ## Request frames and the connection worker (`kv_store.h`, `server.c`) -/

/-- Network message: the message kind as its enumeration value, a 32-byte key
array and a 256-byte value array. -/
structure kv_message_t where
  type : Nat
  key : List Nat
  value : List Nat
deriving DecidableEq, Repr

/-- Enumeration value of `MSG_PUT`. -/
def MSG_PUT : Nat := 0

/-- Enumeration value of `MSG_GET`. -/
def MSG_GET : Nat := 1

/-- Enumeration value of `MSG_DELETE`. -/
def MSG_DELETE : Nat := 2

/-- Enumeration value of `MSG_REPLICATE`. -/
def MSG_REPLICATE : Nat := 3

/-- One `send` of the worker: a status word, or `MAX_VALUE_SIZE` raw bytes. -/
inductive Sent where
  | status (result : kv_error_t)
  | buffer (bytes : List Nat)
deriving DecidableEq, Repr

/-- The `switch` of `handle_client_connection` for one received frame.  `value`
is the worker's local array before the dispatch.  Returns the store and the
local array afterwards and the sends made, in order. -/
def dispatch (store : kv_store_t) (message : kv_message_t) (value : List Nat) :
    kv_store_t × List Nat × List Sent :=
  if message.type = MSG_PUT then
    let r := kv_store_put store message.key message.value
    (r.2, value, [Sent.status r.1])
  else if message.type = MSG_GET then
    let r := kv_store_get store message.key value
    if r.1 = KV_SUCCESS then
      (r.2.1, r.2.2, [Sent.status r.1, Sent.buffer (r.2.2.take MAX_VALUE_SIZE)])
    else (r.2.1, r.2.2, [Sent.status r.1])
  else if message.type = MSG_DELETE then
    let r := kv_store_delete store message.key
    (r.2, value, [Sent.status r.1])
  else (store, value, [Sent.status KV_ERROR_INVALID_KEY])

/-- The loop of `handle_client_connection` over the frames received until the
peer disconnects: the store afterwards and all sends, in order. -/
def handle_client_connection : kv_store_t → List Nat → List kv_message_t →
    kv_store_t × List Sent
  | store, _, [] => (store, [])
  | store, value, message :: rest =>
    let r := dispatch store message value
    let q := handle_client_connection r.1 r.2.1 rest
    (q.1, r.2.2 ++ q.2)

/-! ## Client operations (`client.c`) -/

/-- Client handle. -/
structure kv_client_t where
  socket : Int
  is_connected : Bool
deriving DecidableEq, Repr

/-- Size in bytes of a request frame. -/
def sizeof_kv_message_t : Int := 4 + MAX_KEY_SIZE + MAX_VALUE_SIZE

/-- Size in bytes of a status word. -/
def sizeof_kv_error_t : Int := 4

/-- What the socket calls of one client operation return: the return value of
the `send` of the frame, the return value of the `recv` of the status and the
status word found afterwards, the return value of the `recv` of the value and
the bytes it delivered. -/
structure Transfers where
  sendRet : Int
  statusRet : Int
  result : kv_error_t
  valueRet : Int
  valueBytes : List Nat
deriving DecidableEq, Repr

/-- The frame built by `kv_client_put`; `msg` is the local structure before it
is filled. -/
def kv_client_put_msg (msg : kv_message_t) (key value : List Nat) : kv_message_t :=
  ⟨MSG_PUT, (strncpy msg.key key (MAX_KEY_SIZE - 1)).set (MAX_KEY_SIZE - 1) 0,
    (strncpy msg.value value (MAX_VALUE_SIZE - 1)).set (MAX_VALUE_SIZE - 1) 0⟩

/-- The frame built by `kv_client_get`; the value array is not written. -/
def kv_client_get_msg (msg : kv_message_t) (key : List Nat) : kv_message_t :=
  ⟨MSG_GET, (strncpy msg.key key (MAX_KEY_SIZE - 1)).set (MAX_KEY_SIZE - 1) 0, msg.value⟩

/-- The frame built by `kv_client_delete`; the value array is not written. -/
def kv_client_delete_msg (msg : kv_message_t) (key : List Nat) : kv_message_t :=
  ⟨MSG_DELETE, (strncpy msg.key key (MAX_KEY_SIZE - 1)).set (MAX_KEY_SIZE - 1) 0, msg.value⟩

/-- Embedding of `kv_client_put`: the status returned and the frame handed to
`send`, if any.  `msg` is the local structure before it is filled; `net` tells
what the socket calls return. -/
def kv_client_put (client : kv_client_t) (key value : List Nat) (msg : kv_message_t)
    (net : Transfers) : kv_error_t × Option kv_message_t :=
  if client.is_connected = false then (KV_ERROR_INVALID_KEY, none)
  else
    let msg1 := kv_client_put_msg msg key value
    if net.sendRet ≠ sizeof_kv_message_t then (KV_ERROR_NETWORK, some msg1)
    else if net.statusRet ≠ sizeof_kv_error_t then (KV_ERROR_NETWORK, some msg1)
    else (net.result, some msg1)

/-- Embedding of `kv_client_get`: the status returned, the caller's value array
afterwards (`value` is that array before the call) and the frame handed to
`send`, if any. -/
def kv_client_get (client : kv_client_t) (key value : List Nat) (msg : kv_message_t)
    (net : Transfers) : kv_error_t × List Nat × Option kv_message_t :=
  if client.is_connected = false then (KV_ERROR_INVALID_KEY, value, none)
  else
    let msg1 := kv_client_get_msg msg key
    if net.sendRet ≠ sizeof_kv_message_t then (KV_ERROR_NETWORK, value, some msg1)
    else if net.statusRet ≠ sizeof_kv_error_t then (KV_ERROR_NETWORK, value, some msg1)
    else if net.result = KV_SUCCESS then
      if net.valueRet ≤ 0 then (KV_ERROR_NETWORK, value, some msg1)
      else
        let value1 := net.valueBytes ++ value.drop net.valueBytes.length
        (net.result, value1.set (MAX_VALUE_SIZE - 1) 0, some msg1)
    else (net.result, value, some msg1)

/-- Embedding of `kv_client_delete`: the status returned and the frame handed
to `send`, if any. -/
def kv_client_delete (client : kv_client_t) (key : List Nat) (msg : kv_message_t)
    (net : Transfers) : kv_error_t × Option kv_message_t :=
  if client.is_connected = false then (KV_ERROR_INVALID_KEY, none)
  else
    let msg1 := kv_client_delete_msg msg key
    if net.sendRet ≠ sizeof_kv_message_t then (KV_ERROR_NETWORK, some msg1)
    else if net.statusRet ≠ sizeof_kv_error_t then (KV_ERROR_NETWORK, some msg1)
    else (net.result, some msg1)

/-! ## Sequences of store calls -/

/-- A call of `kv_store_put` or of `kv_store_delete`. -/
inductive Op where
  | put (key value : List Nat)
  | delete (key : List Nat)
deriving DecidableEq, Repr

/-- The store after one call. -/
def applyOp (s : kv_store_t) : Op → kv_store_t
  | Op.put k v => (kv_store_put s k v).2
  | Op.delete k => (kv_store_delete s k).2

/-- Whether a call is a put of the C string at `k`. -/
def putsKey (k : List Nat) : Op → Bool
  | Op.put k1 _ => decide (cstr k1 = cstr k)
  | Op.delete _ => false

/-- Whether a call fits the snapshot format: a put of a key of fewer than 31
bytes without comma or newline and of a value of fewer than 255 bytes without
newline (commas are allowed in the value); any delete. -/
def snapshotSafe : Op → Bool
  | Op.put k v =>
    decide (strlen k < 31 ∧ 44 ∉ cstr k ∧ 10 ∉ cstr k ∧ strlen v < 255 ∧ 10 ∉ cstr v)
  | Op.delete _ => true

/-- The store after a sequence of calls, first call first. -/
def applyOps (s : kv_store_t) (ops : List Op) : kv_store_t := ops.foldl applyOp s

/-! ## Sequences of store calls, lookups included -/

/-- A call of `kv_store_put`, of `kv_store_get` (with the caller's output array)
or of `kv_store_delete`. -/
inductive Call where
  | put (key value : List Nat)
  | get (key out : List Nat)
  | delete (key : List Nat)
deriving DecidableEq, Repr

/-- The store after one call. -/
def applyCall (s : kv_store_t) : Call → kv_store_t
  | Call.put k v => (kv_store_put s k v).2
  | Call.get k out => (kv_store_get s k out).2.1
  | Call.delete k => (kv_store_delete s k).2

/-- The store after a sequence of calls, first call first. -/
def applyCalls (s : kv_store_t) (calls : List Call) : kv_store_t := calls.foldl applyCall s

/-- Every occupied slot sits at the index of its key. -/
def OwnBucket (s : kv_store_t) : Prop :=
  ∀ i, (s i).is_occupied = true → hash (s i).key = i

/-! ## A client operation served by the worker -/

/-- What the client's socket calls return when the frame is written whole and
the sends of the worker for that frame are read whole. -/
def deliver : List Sent → Transfers
  | [Sent.status r] => ⟨sizeof_kv_message_t, sizeof_kv_error_t, r, 0, []⟩
  | [Sent.status r, Sent.buffer b] => ⟨sizeof_kv_message_t, sizeof_kv_error_t, r, b.length, b⟩
  | _ => ⟨sizeof_kv_message_t, 0, KV_ERROR_NETWORK, 0, []⟩

/-- The two arrays of a frame have their declared sizes. -/
def FrameSized (msg : kv_message_t) : Prop :=
  msg.key.length = MAX_KEY_SIZE ∧ msg.value.length = MAX_VALUE_SIZE

/-- A `kv_client_put` served by the worker on store `s` over a connection that
transfers everything: the status the client returns and the store afterwards.
`msg` is the client's local structure and `wv` the worker's local array, both
as they are before the operation. -/
def remote_put (s : kv_store_t) (c : kv_client_t) (key value : List Nat) (msg : kv_message_t)
    (wv : List Nat) : kv_error_t × kv_store_t :=
  if c.is_connected = false then ((kv_client_put c key value msg (deliver [])).1, s)
  else
    let d := dispatch s (kv_client_put_msg msg key value) wv
    ((kv_client_put c key value msg (deliver d.2.2)).1, d.1)

/-- A `kv_client_get` served by the worker on store `s` over a connection that
transfers everything: the status the client returns and the caller's value
array afterwards (`out` is that array before the call). -/
def remote_get (s : kv_store_t) (c : kv_client_t) (key out : List Nat) (msg : kv_message_t)
    (wv : List Nat) : kv_error_t × List Nat :=
  if c.is_connected = false then
    ((kv_client_get c key out msg (deliver [])).1, (kv_client_get c key out msg (deliver [])).2.1)
  else
    let d := dispatch s (kv_client_get_msg msg key) wv
    ((kv_client_get c key out msg (deliver d.2.2)).1,
      (kv_client_get c key out msg (deliver d.2.2)).2.1)

/-! ## The load as the specification words it -/

/-- The lines of a text: the text cut at every newline, the newlines dropped. -/
def splitLines : List Nat → List (List Nat)
  | [] => []
  | c :: cs =>
    if c = 10 then [] :: splitLines cs
    else
      match splitLines cs with
      | [] => [[c]]
      | l :: ls => (c :: l) :: ls

/-- The part of a line before its first comma. -/
def recordKey (line : List Nat) : List Nat := line.takeWhile (fun c => c ≠ 44)

/-- The part of a line after its first comma. -/
def recordValue (line : List Nat) : List Nat := (line.dropWhile (fun c => c ≠ 44)).drop 1

/-- What the specification asks for one line: a put of the key and the value for
a line with a comma, nothing for a line without. -/
def putLine (t : kv_store_t) (line : List Nat) : kv_store_t :=
  if 44 ∈ line then (kv_store_put t (recordKey line) (recordValue line)).2 else t

/-- The load as the specification words it: the puts of the lines with a comma,
in file order. -/
def loadSpec (t : kv_store_t) (text : List Nat) : kv_store_t :=
  (splitLines text).foldl putLine t

/-- Whether a line has no comma, or a key of fewer than 31 bytes and a value of
fewer than 255 bytes. -/
def lineOk (line : List Nat) : Bool :=
  decide (44 ∉ line ∨ ((recordKey line).length < 31 ∧ (recordValue line).length < 255))

/-! ## The hash as the specification words it -/

/-- The sum of `b_i * 31 ^ (n - 1 - i)` over the `n` bytes `b_0 .. b_(n-1)` of a
key, over the unbounded naturals. -/
def polySum (key : List Nat) : Nat :=
  ((List.range key.length).map (fun i => key.getD i 0 * 31 ^ (key.length - 1 - i))).sum

/-! ## Invariants of the store -/

/-- Every key array and every value array ends with a NUL in its last byte.
This holds after `memset` and is kept by every operation, since `strncpy` is
called with one byte less than the array size. -/
def StoreWF (s : kv_store_t) : Prop :=
  ∀ i, (s i).key.drop (MAX_KEY_SIZE - 1) = [0] ∧ (s i).value.drop (MAX_VALUE_SIZE - 1) = [0]

/-- No occupied slot of the store holds the C string at `k`. -/
def Absent (k : List Nat) (s : kv_store_t) : Prop :=
  ∀ i, (s i).is_occupied = true → cstr (s i).key ≠ cstr k

/-- Every occupied slot holds a key of fewer than 31 bytes without comma or
newline, a value of fewer than 255 bytes without newline, and sits at the
index of its key. -/
def SnapInv (s : kv_store_t) : Prop :=
  ∀ i, (s i).is_occupied = true →
    strlen (s i).key < 31 ∧ 44 ∉ cstr (s i).key ∧ 10 ∉ cstr (s i).key ∧
    strlen (s i).value < 255 ∧ 10 ∉ cstr (s i).value ∧ hash (s i).key = i

/-- What the load does with the line written for slot `i` of the saved store
`s`: a put of the key and value of that slot, when it is occupied. -/
def loadStep (s t : kv_store_t) (i : Fin TABLE_SIZE) : kv_store_t :=
  if (s i).is_occupied = true then (kv_store_put t (s i).key (s i).value).2 else t

/-- Slot `j` of `t` is occupied by the key and value of slot `j` of `s`. -/
def Loaded (s t : kv_store_t) (j : Fin TABLE_SIZE) : Prop :=
  (t j).is_occupied = true ∧ cstr (t j).key = cstr (s j).key ∧
    cstr (t j).value = cstr (s j).value

/-! ## Basic facts on C strings -/

theorem cstr_ne_zero (p : List Nat) : ∀ c ∈ cstr p, c ≠ 0 := by
  intro c hc
  have := List.mem_takeWhile_imp hc
  simpa using this

theorem cstr_of_ne_zero {a : List Nat} (h : ∀ c ∈ a, c ≠ 0) : cstr a = a := by
  unfold cstr
  rw [List.takeWhile_eq_self_iff]
  intro x hx
  simpa using h x hx

theorem cstr_append_zero {a : List Nat} (h : ∀ c ∈ a, c ≠ 0) (b : List Nat) :
    cstr (a ++ 0 :: b) = a := by
  unfold cstr
  rw [List.takeWhile_append_of_pos (by intro x hx; simpa using h x hx)]
  simp

theorem cstr_idem (p : List Nat) : cstr (cstr p) = cstr p :=
  cstr_of_ne_zero (cstr_ne_zero p)

/-- The first `n` bytes written by `strncpy` when the source is shorter than
`n`: the source string, then at least one NUL. -/
theorem strncpy_of_lt (dst src : List Nat) (n : Nat) (h : strlen src < n) :
    strncpy dst src n =
      cstr src ++ 0 :: (List.replicate (n - strlen src - 1) 0 ++ dst.drop n) := by
  unfold strncpy
  unfold strlen at *
  rw [List.take_append_eq_append_take, List.take_of_length_le (by omega)]
  have h2 : n - (cstr src).length = (n - (cstr src).length - 1) + 1 := by omega
  rw [List.take_replicate, Nat.min_eq_left (by omega)]
  conv_lhs => rw [h2, List.replicate_succ]
  simp

/-- A source shorter than `n` is copied whole and terminated. -/
theorem cstr_strncpy_of_lt (dst src : List Nat) (n : Nat) (h : strlen src < n) :
    cstr (strncpy dst src n) = cstr src := by
  rw [strncpy_of_lt dst src n h]
  exact cstr_append_zero (cstr_ne_zero src) _

theorem strcmp_eq_zero_iff (a b : List Nat) : strcmp a b = 0 ↔ cstr a = cstr b := by
  unfold strcmp
  split
  · simp [*]
  · split <;> simp [*]

/-! ## Basic facts on the store operations -/

theorem strncpy_drop (dst src : List Nat) (n : Nat) :
    (strncpy dst src n).drop n = dst.drop n := by
  unfold strncpy
  have hl : ((cstr src ++ List.replicate n 0).take n).length = n := by
    simp
  rw [List.drop_append_eq_append_drop, hl]
  simp

/-- A source of at most `n` bytes is copied whole when byte `n` of the
destination is a NUL. -/
theorem cstr_strncpy_of_le (dst src : List Nat) (n : Nat) (h : strlen src ≤ n)
    (hd : dst.drop n = [0]) : cstr (strncpy dst src n) = cstr src := by
  rcases Nat.lt_or_ge (strlen src) n with hlt | hge
  · exact cstr_strncpy_of_lt dst src n hlt
  · have he : (cstr src).length = n := by unfold strlen at *; omega
    unfold strncpy
    rw [List.take_append_of_le_length (by omega), List.take_of_length_le (by omega), hd]
    exact cstr_append_zero (cstr_ne_zero src) []

theorem emptyStore_wf : StoreWF emptyStore := by
  intro i
  constructor
  · show List.drop (MAX_KEY_SIZE - 1) (List.replicate MAX_KEY_SIZE 0) = [0]
    decide
  · show List.drop (MAX_VALUE_SIZE - 1) (List.replicate MAX_VALUE_SIZE 0) = [0]
    rw [List.drop_replicate]
    rfl

theorem kv_store_put_wf (s : kv_store_t) (k v : List Nat) (h : StoreWF s) :
    StoreWF (kv_store_put s k v).2 := by
  unfold kv_store_put
  split
  · exact h
  · intro i
    by_cases hi : i = hash k
    · subst hi
      simp only [Function.update_same, strncpy_drop]
      exact h _
    · simp only [Function.update_noteq hi]
      exact h i

theorem kv_store_delete_wf (s : kv_store_t) (k : List Nat) (h : StoreWF s) :
    StoreWF (kv_store_delete s k).2 := by
  unfold kv_store_delete
  simp only
  split
  · exact h
  · intro i
    by_cases hi : i = hash k
    · subst hi
      simp only [Function.update_same]
      exact h _
    · simp only [Function.update_noteq hi]
      exact h i

theorem kv_store_put_of_lt (s : kv_store_t) (k v : List Nat) (h : strlen k < MAX_KEY_SIZE) :
    kv_store_put s k v = (KV_SUCCESS, Function.update s (hash k)
      ⟨strncpy (s (hash k)).key k (MAX_KEY_SIZE - 1),
       strncpy (s (hash k)).value v (MAX_VALUE_SIZE - 1), true⟩) := by
  unfold kv_store_put
  rw [if_neg (by omega)]

theorem kv_store_put_of_ge (s : kv_store_t) (k v : List Nat) (h : MAX_KEY_SIZE ≤ strlen k) :
    kv_store_put s k v = (KV_ERROR_INVALID_KEY, s) := by
  unfold kv_store_put
  rw [if_pos h]

theorem kv_store_put_status (s : kv_store_t) (k v : List Nat) :
    (kv_store_put s k v).1 = KV_SUCCESS ↔ strlen k < MAX_KEY_SIZE := by
  unfold kv_store_put
  split <;> simp <;> omega

/-- The lookup succeeds when the slot is occupied by the requested key. -/
theorem kv_store_get_of_match (s : kv_store_t) (k out : List Nat)
    (ho : (s (hash k)).is_occupied = true) (hk : cstr (s (hash k)).key = cstr k) :
    kv_store_get s k out =
      (KV_SUCCESS, s, strncpy out (s (hash k)).value (MAX_VALUE_SIZE - 1)) := by
  unfold kv_store_get
  simp only
  rw [if_neg]
  simp [ho, strcmp_eq_zero_iff, hk]

/-- The lookup fails when the slot is free or holds another key. -/
theorem kv_store_get_of_miss (s : kv_store_t) (k out : List Nat)
    (h : (s (hash k)).is_occupied = false ∨ cstr (s (hash k)).key ≠ cstr k) :
    kv_store_get s k out = (KV_ERROR_NOT_FOUND, s, out) := by
  unfold kv_store_get
  simp only
  rw [if_pos]
  rcases h with h | h
  · exact Or.inl h
  · exact Or.inr (by rw [Ne, strcmp_eq_zero_iff]; exact h)

theorem kv_store_delete_of_match (s : kv_store_t) (k : List Nat)
    (ho : (s (hash k)).is_occupied = true) (hk : cstr (s (hash k)).key = cstr k) :
    kv_store_delete s k =
      (KV_SUCCESS, Function.update s (hash k)
        ⟨(s (hash k)).key, (s (hash k)).value, false⟩) := by
  unfold kv_store_delete
  simp only
  rw [if_neg]
  simp [ho, strcmp_eq_zero_iff, hk]

theorem kv_store_delete_of_miss (s : kv_store_t) (k : List Nat)
    (h : (s (hash k)).is_occupied = false ∨ cstr (s (hash k)).key ≠ cstr k) :
    kv_store_delete s k = (KV_ERROR_NOT_FOUND, s) := by
  unfold kv_store_delete
  simp only
  rw [if_pos]
  rcases h with h | h
  · exact Or.inl h
  · exact Or.inr (by rw [Ne, strcmp_eq_zero_iff]; exact h)

/-- The lookup reads nothing but the slot of the key. -/
theorem kv_store_get_congr (s t : kv_store_t) (k out : List Nat)
    (h : s (hash k) = t (hash k)) :
    (kv_store_get s k out).1 = (kv_store_get t k out).1 ∧
      (kv_store_get s k out).2.2 = (kv_store_get t k out).2.2 := by
  unfold kv_store_get
  simp only [h]
  split <;> simp

/-- A put with a key shorter than 31 bytes and a value shorter than 255 bytes,
then a get of the key. -/
theorem put_then_get (s : kv_store_t) (k v out : List Nat)
    (hk : strlen k < 31) (hv : strlen v < 255) :
    (kv_store_put s k v).1 = KV_SUCCESS ∧
      (kv_store_get (kv_store_put s k v).2 k out).1 = KV_SUCCESS ∧
      cstr (kv_store_get (kv_store_put s k v).2 k out).2.2 = cstr v := by
  have hk2 : strlen k < MAX_KEY_SIZE := by unfold MAX_KEY_SIZE; omega
  rw [kv_store_put_of_lt s k v hk2]
  have hkey : cstr (strncpy (s (hash k)).key k (MAX_KEY_SIZE - 1)) = cstr k :=
    cstr_strncpy_of_lt _ _ _ (by unfold MAX_KEY_SIZE; omega)
  have hval : cstr (strncpy (s (hash k)).value v (MAX_VALUE_SIZE - 1)) = cstr v :=
    cstr_strncpy_of_lt _ _ _ (by unfold MAX_VALUE_SIZE; omega)
  rw [kv_store_get_of_match _ k out (by simp) (by simpa using hkey)]
  refine ⟨rfl, rfl, ?_⟩
  simp only [Function.update_same]
  rw [cstr_strncpy_of_lt _ _ _ (by unfold strlen; rw [hval]; exact hv), hval]

theorem applyOp_wf (s : kv_store_t) (op : Op) (h : StoreWF s) : StoreWF (applyOp s op) := by
  cases op with
  | put k v => exact kv_store_put_wf s k v h
  | delete k => exact kv_store_delete_wf s k h

theorem applyOps_wf (ops : List Op) (s : kv_store_t) (h : StoreWF s) :
    StoreWF (applyOps s ops) := by
  induction ops generalizing s with
  | nil => exact h
  | cons op rest ih => exact ih _ (applyOp_wf s op h)

theorem applyOp_absent (k : List Nat) (s : kv_store_t) (op : Op) (hs : StoreWF s)
    (h : Absent k s) (hop : putsKey k op = false) : Absent k (applyOp s op) := by
  cases op with
  | put k1 v =>
    have hne : cstr k1 ≠ cstr k := by simpa [putsKey] using hop
    show Absent k (kv_store_put s k1 v).2
    unfold kv_store_put
    split
    · exact h
    · rename_i hlen
      intro i
      by_cases hi : i = hash k1
      · subst hi
        intro _
        simp only [Function.update_same]
        rw [cstr_strncpy_of_le _ _ _ (by omega) (hs _).1]
        exact hne
      · simp only [Function.update_noteq hi]
        exact h i
  | delete k1 =>
    show Absent k (kv_store_delete s k1).2
    unfold kv_store_delete
    simp only
    split
    · exact h
    · intro i
      by_cases hi : i = hash k1
      · subst hi
        simp
      · simp only [Function.update_noteq hi]
        exact h i

theorem applyOps_absent (k : List Nat) (ops : List Op) (s : kv_store_t) (hs : StoreWF s)
    (h : Absent k s) (hops : ∀ op ∈ ops, putsKey k op = false) :
    Absent k (applyOps s ops) := by
  induction ops generalizing s with
  | nil => exact h
  | cons op rest ih =>
    exact ih _ (applyOp_wf s op hs)
      (applyOp_absent k s op hs h (hops op (List.mem_cons_self _ _)))
      (fun o ho => hops o (List.mem_cons_of_mem _ ho))

/-! ## Facts on the snapshot file -/

theorem hashLoop_cstr (p : List Nat) (h : Nat) : hashLoop (cstr p) h = hashLoop p h := by
  induction p generalizing h with
  | nil => rfl
  | cons c cs ih =>
    by_cases hc : c = 0
    · subst hc
      simp [cstr, hashLoop]
    · have : cstr (c :: cs) = c :: cstr cs := by simp [cstr, hc]
      rw [this]
      simp only [hashLoop, if_neg hc]
      exact ih _

theorem hash_cstr (p : List Nat) : hash (cstr p) = hash p := by
  unfold hash hashVal
  simp only [hashLoop_cstr]

/-- The slot index depends on the C string only. -/
theorem hash_congr {p q : List Nat} (h : cstr p = cstr q) : hash p = hash q := by
  rw [← hash_cstr p, ← hash_cstr q, h]

theorem strncpy_congr (dst : List Nat) {p q : List Nat} (n : Nat) (h : cstr p = cstr q) :
    strncpy dst p n = strncpy dst q n := by
  unfold strncpy
  rw [h]

/-- A put depends on its two pointer arguments through their C strings only. -/
theorem kv_store_put_congr (s : kv_store_t) {k k1 v v1 : List Nat} (hk : cstr k = cstr k1)
    (hv : cstr v = cstr v1) : kv_store_put s k v = kv_store_put s k1 v1 := by
  unfold kv_store_put strlen
  simp only [hk, hash_congr hk, strncpy_congr _ _ hk, strncpy_congr _ _ hv]

/-- A get reads the flag of the slot and the C strings of its two arrays. -/
theorem kv_store_get_slot (s t : kv_store_t) (k out : List Nat)
    (ho : (s (hash k)).is_occupied = (t (hash k)).is_occupied)
    (hkv : (s (hash k)).is_occupied = true →
      cstr (s (hash k)).key = cstr (t (hash k)).key ∧
      cstr (s (hash k)).value = cstr (t (hash k)).value) :
    (kv_store_get s k out).1 = (kv_store_get t k out).1 ∧
      (kv_store_get s k out).2.2 = (kv_store_get t k out).2.2 := by
  cases hs : (s (hash k)).is_occupied with
  | false =>
    rw [kv_store_get_of_miss s k out (Or.inl hs),
      kv_store_get_of_miss t k out (Or.inl (by rw [← ho]; exact hs))]
    exact ⟨rfl, rfl⟩
  | true =>
    have ht : (t (hash k)).is_occupied = true := by rw [← ho]; exact hs
    obtain ⟨h1, h2⟩ := hkv hs
    by_cases hm : cstr (s (hash k)).key = cstr k
    · rw [kv_store_get_of_match s k out hs hm,
        kv_store_get_of_match t k out ht (by rw [← h1]; exact hm)]
      exact ⟨rfl, strncpy_congr _ _ h2⟩
    · rw [kv_store_get_of_miss s k out (Or.inr hm),
        kv_store_get_of_miss t k out (Or.inr (by rw [← h1]; exact hm))]
      exact ⟨rfl, rfl⟩

/-- A line shorter than the limit is read whole, newline included. -/
theorem fgetsAux_line (n : Nat) (l rest : List Nat) (hl : l.length < n) (hn : 10 ∉ l) :
    fgetsAux n (l ++ 10 :: rest) = (l ++ [10], rest) := by
  induction l generalizing n with
  | nil =>
    obtain ⟨m, rfl⟩ : ∃ m, n = m + 1 := ⟨n - 1, by simp at hl; omega⟩
    simp [fgetsAux]
  | cons c cs ih =>
    obtain ⟨m, rfl⟩ : ∃ m, n = m + 1 := ⟨n - 1, by simp at hl; omega⟩
    have hc : c ≠ 10 := fun h => hn (by simp [h])
    have hcs : 10 ∉ cs := fun h => hn (by simp [h])
    have hlen : cs.length < m := by simp at hl; omega
    have h := ih m hlen hcs
    simp [fgetsAux, hc, h]

theorem fgets_line (l rest : List Nat) (hl : l.length + 1 < MAX_KEY_SIZE + MAX_VALUE_SIZE + 2)
    (hn : 10 ∉ l) :
    fgets (MAX_KEY_SIZE + MAX_VALUE_SIZE + 2) (l ++ 10 :: rest) = some (l ++ [10], rest) := by
  unfold fgets
  rw [if_neg (by simp), fgetsAux_line _ l rest (by omega) hn]

/-- The loop body of the load on a line `key,value\n` whose key has fewer than
31 bytes and no comma and whose value has fewer than 255 bytes and no
newline: a put of the key and the value, whatever the local arrays held. -/
theorem loadLine_record (s : kv_store_t) (kb vb key val : List Nat)
    (hk0 : ∀ c ∈ key, c ≠ 0) (hkc : 44 ∉ key) (hkl : key.length < 31)
    (hv0 : ∀ c ∈ val, c ≠ 0) (hvn : 10 ∉ val) (hvl : val.length < 255) :
    (loadLine s kb vb (key ++ [44] ++ val ++ [10])).1 = (kv_store_put s key val).2 := by
  have hline0 : ∀ c ∈ key ++ [44] ++ val ++ [10], c ≠ 0 := by
    intro c hc
    simp only [List.mem_append, List.mem_singleton] at hc
    rcases hc with ((hc | hc) | hc) | hc
    · exact hk0 c hc
    · omega
    · exact hv0 c hc
    · omega
  have hcs : cstr (key ++ [44] ++ val ++ [10]) = key ++ [44] ++ val ++ [10] :=
    cstr_of_ne_zero hline0
  have hchr : strchr (key ++ [44] ++ val ++ [10]) 44 = some key.length := by
    unfold strchr
    rw [hcs, if_pos (by simp)]
    simp [List.indexOf_append_of_not_mem hkc]
  unfold loadLine
  rw [hchr]
  simp only
  have hset : (key ++ [44] ++ val ++ [10]).set key.length 0 = key ++ 0 :: (val ++ [10]) := by
    simp
  have hdrop : (key ++ 0 :: (val ++ [10])).drop (key.length + 1) = val ++ [10] := by
    simp
  rw [hset, hdrop]
  have hkey : cstr (key ++ 0 :: (val ++ [10])) = key := cstr_append_zero hk0 _
  have hkey1 : cstr (strncpy kb (key ++ 0 :: (val ++ [10])) (MAX_KEY_SIZE - 1)) = cstr key := by
    rw [cstr_strncpy_of_lt _ _ _ (by unfold strlen; rw [hkey]; exact hkl), hkey,
      cstr_of_ne_zero hk0]
  have hvn0 : ∀ c ∈ val ++ [10], c ≠ 0 := by
    intro c hc
    simp only [List.mem_append, List.mem_singleton] at hc
    rcases hc with hc | hc
    · exact hv0 c hc
    · omega
  have hv1 : strncpy vb (val ++ [10]) (MAX_VALUE_SIZE - 1)
      = val ++ 10 :: (List.replicate (MAX_VALUE_SIZE - 1 - val.length - 1) 0
          ++ vb.drop (MAX_VALUE_SIZE - 1)) := by
    unfold strncpy
    rw [cstr_of_ne_zero hvn0, List.take_append_eq_append_take,
      List.take_of_length_le (by simp; unfold MAX_VALUE_SIZE; omega), List.take_replicate]
    have : min (MAX_VALUE_SIZE - 1 - (val ++ [10]).length) (MAX_VALUE_SIZE - 1)
        = MAX_VALUE_SIZE - 1 - val.length - 1 := by
      simp; omega
    rw [this]
    simp
  have hspn : strcspn_nl (val ++ 10 :: (List.replicate (MAX_VALUE_SIZE - 1 - val.length - 1) 0
          ++ vb.drop (MAX_VALUE_SIZE - 1))) = val.length := by
    unfold strcspn_nl
    rw [List.takeWhile_append_of_pos]
    · simp
    · intro c hc
      have h1 := hv0 c hc
      have h2 : c ≠ 10 := fun h => hvn (h ▸ hc)
      simp [h1, h2]
  rw [hv1, hspn]
  have hv2 : (val ++ 10 :: (List.replicate (MAX_VALUE_SIZE - 1 - val.length - 1) 0
          ++ vb.drop (MAX_VALUE_SIZE - 1))).set val.length 0
      = val ++ 0 :: (List.replicate (MAX_VALUE_SIZE - 1 - val.length - 1) 0
          ++ vb.drop (MAX_VALUE_SIZE - 1)) := by
    simp
  rw [hv2]
  have hval : cstr (val ++ 0 :: (List.replicate (MAX_VALUE_SIZE - 1 - val.length - 1) 0
          ++ vb.drop (MAX_VALUE_SIZE - 1))) = cstr val := by
    rw [cstr_append_zero hv0, cstr_of_ne_zero hv0]
  exact congrArg Prod.snd (kv_store_put_congr s hkey1 hval)

theorem loadLoop_nil (fuel : Nat) (t : kv_store_t) (kb vb : List Nat) :
    loadLoop fuel t kb vb [] = t := by
  cases fuel <;> simp [loadLoop, fgets]

/-- Every read of a non-empty stream with room for one byte consumes a byte. -/
theorem fgetsAux_length (n : Nat) (stream : List Nat) (hn : 0 < n) (hs : stream ≠ []) :
    (fgetsAux n stream).2.length < stream.length := by
  induction stream generalizing n with
  | nil => exact absurd rfl hs
  | cons c cs ih =>
    obtain ⟨m, rfl⟩ : ∃ m, n = m + 1 := ⟨n - 1, by omega⟩
    unfold fgetsAux
    split
    · simp
    · simp only [List.length_cons]
      cases m with
      | zero => simp [fgetsAux]
      | succ m =>
        cases cs with
        | nil => simp [fgetsAux]
        | cons d ds =>
          have := ih (m + 1) (by omega) (by simp)
          simp only [List.length_cons] at this ⊢
          omega

/-- The result of the load loop is the same for every fuel that is at least the
length of the stream: the loop ends by itself, at the end of the file. -/
theorem loadLoop_fuel (f1 f2 : Nat) (t : kv_store_t) (kb vb stream : List Nat)
    (h1 : stream.length ≤ f1) (h2 : stream.length ≤ f2) :
    loadLoop f1 t kb vb stream = loadLoop f2 t kb vb stream := by
  induction f1 generalizing f2 t kb vb stream with
  | zero =>
    have : stream = [] := List.length_eq_zero.1 (by omega)
    subst this
    rw [loadLoop_nil, loadLoop_nil]
  | succ f1 ih =>
    cases f2 with
    | zero =>
      have : stream = [] := List.length_eq_zero.1 (by omega)
      subst this
      rw [loadLoop_nil, loadLoop_nil]
    | succ f2 =>
      by_cases hs : stream = []
      · subst hs
        rw [loadLoop_nil, loadLoop_nil]
      · have hlt := fgetsAux_length (MAX_KEY_SIZE + MAX_VALUE_SIZE + 2 - 1) stream
          (by decide) hs
        unfold loadLoop
        unfold fgets
        rw [if_neg hs]
        simp only
        exact ih _ _ _ _ _ (by omega) (by omega)

theorem loadLine_wf (t : kv_store_t) (kb vb line : List Nat) (h : StoreWF t) :
    StoreWF (loadLine t kb vb line).1 := by
  unfold loadLine
  split
  · exact h
  · exact kv_store_put_wf _ _ _ h

theorem loadLoop_wf (fuel : Nat) (t : kv_store_t) (kb vb stream : List Nat) (h : StoreWF t) :
    StoreWF (loadLoop fuel t kb vb stream) := by
  induction fuel generalizing t kb vb stream with
  | zero => exact h
  | succ f ih =>
    unfold loadLoop
    split
    · exact h
    · exact ih _ _ _ _ (loadLine_wf _ _ _ _ h)

/-- The table built by `kv_store_create` has NUL-terminated arrays. -/
theorem kv_store_create_wf (file : Option (List Nat)) (kb vb : List Nat) :
    StoreWF (kv_store_create file kb vb) := by
  unfold kv_store_create kv_store_load
  cases file with
  | none => exact emptyStore_wf
  | some text => exact loadLoop_wf _ _ _ _ _ emptyStore_wf

/-- The load loop on the lines saved for a list of slots is the sequence of
the puts of the occupied ones; a fuel of the text length is enough. -/
theorem loadLoop_entries (s : kv_store_t) (hs : SnapInv s) (is : List (Fin TABLE_SIZE))
    (t : kv_store_t) (kb vb : List Nat) (fuel : Nat)
    (hf : (is.flatMap (fun i => entryLine (s i))).length ≤ fuel) :
    loadLoop fuel t kb vb (is.flatMap (fun i => entryLine (s i)))
      = is.foldl (loadStep s) t := by
  induction is generalizing t kb vb fuel with
  | nil => exact loadLoop_nil fuel t kb vb
  | cons i rest ih =>
    rw [List.flatMap_cons] at hf ⊢
    rw [List.foldl_cons]
    cases ho : (s i).is_occupied with
    | false =>
      have he : entryLine (s i) = [] := by simp [entryLine, ho]
      rw [he] at hf ⊢
      have hst : loadStep s t i = t := by simp [loadStep, ho]
      rw [hst]
      exact ih t kb vb fuel (by simpa using hf)
    | true =>
      obtain ⟨h1, h2, h3, h4, h5, _⟩ := hs i ho
      have he : entryLine (s i) = cstr (s i).key ++ [44] ++ cstr (s i).value ++ [10] := by
        simp [entryLine, ho]
      have hst : loadStep s t i = (kv_store_put t (s i).key (s i).value).2 := by
        simp [loadStep, ho]
      rw [he] at hf ⊢
      rw [hst]
      obtain ⟨f, rfl⟩ : ∃ f, fuel = f + 1 := ⟨fuel - 1, by simp at hf; omega⟩
      have htext : cstr (s i).key ++ [44] ++ cstr (s i).value ++ [10]
            ++ rest.flatMap (fun i => entryLine (s i))
          = (cstr (s i).key ++ [44] ++ cstr (s i).value)
            ++ 10 :: rest.flatMap (fun i => entryLine (s i)) := by
        simp
      have hn : 10 ∉ cstr (s i).key ++ [44] ++ cstr (s i).value := by
        simp only [List.mem_append, List.mem_singleton]
        rintro ((h | h) | h)
        · exact h3 h
        · omega
        · exact h5 h
      have hlen : (cstr (s i).key ++ [44] ++ cstr (s i).value).length + 1
          < MAX_KEY_SIZE + MAX_VALUE_SIZE + 2 := by
        unfold strlen at h1 h4
        simp only [List.length_append, List.length_singleton]
        unfold MAX_KEY_SIZE MAX_VALUE_SIZE
        omega
      rw [htext]
      unfold loadLoop
      rw [fgets_line _ _ hlen hn]
      simp only
      rw [ih _ _ _ f (by simp at hf ⊢; omega)]
      rw [loadLine_record t kb vb (cstr (s i).key) (cstr (s i).value) (cstr_ne_zero _) h2 h1
        (cstr_ne_zero _) h5 h4]
      rw [kv_store_put_congr t (cstr_idem (s i).key) (cstr_idem (s i).value)]

theorem loadStep_slot (s : kv_store_t) (hs : SnapInv s) (t : kv_store_t) (i : Fin TABLE_SIZE)
    (ho : (s i).is_occupied = true) :
    Loaded s (loadStep s t i) i ∧ ∀ j, j ≠ i → loadStep s t i j = t j := by
  obtain ⟨h1, _, _, h4, _, h6⟩ := hs i ho
  have hst : loadStep s t i = Function.update t i
      ⟨strncpy (t i).key (s i).key (MAX_KEY_SIZE - 1),
       strncpy (t i).value (s i).value (MAX_VALUE_SIZE - 1), true⟩ := by
    unfold loadStep
    rw [if_pos ho, kv_store_put_of_lt t _ _ (by unfold MAX_KEY_SIZE; omega), h6]
  rw [hst]
  constructor
  · refine ⟨by simp, ?_, ?_⟩
    · simp only [Function.update_same]
      exact cstr_strncpy_of_lt _ _ _ (by unfold MAX_KEY_SIZE; omega)
    · simp only [Function.update_same]
      exact cstr_strncpy_of_lt _ _ _ (by unfold MAX_VALUE_SIZE; omega)
  · intro j hj
    exact Function.update_noteq hj _ _

theorem foldl_loadStep (s : kv_store_t) (hs : SnapInv s) (is : List (Fin TABLE_SIZE))
    (t : kv_store_t) (j : Fin TABLE_SIZE) :
    ((j ∈ is ∧ (s j).is_occupied = true) → Loaded s (is.foldl (loadStep s) t) j) ∧
      (¬ (j ∈ is ∧ (s j).is_occupied = true) → (is.foldl (loadStep s) t) j = t j) := by
  induction is generalizing t with
  | nil => simp
  | cons i rest ih =>
    rw [List.foldl_cons]
    obtain ⟨ih1, ih2⟩ := ih (loadStep s t i)
    by_cases hr : j ∈ rest ∧ (s j).is_occupied = true
    · refine ⟨fun _ => ih1 hr, fun h => ?_⟩
      exact absurd ⟨List.mem_cons_of_mem _ hr.1, hr.2⟩ h
    · have hu := ih2 hr
      constructor
      · rintro ⟨hmem, ho⟩
        have hji : j = i := by
          rcases List.mem_cons.1 hmem with h | h
          · exact h
          · exact absurd ⟨h, ho⟩ hr
        subst hji
        unfold Loaded
        rw [hu]
        exact (loadStep_slot s hs t j ho).1
      · intro h
        rw [hu]
        cases ho : (s i).is_occupied with
        | false => simp [loadStep, ho]
        | true =>
          have hji : j ≠ i := by
            intro e
            subst e
            exact h ⟨List.mem_cons_self _ _, ho⟩
          exact (loadStep_slot s hs t i ho).2 j hji

/-- Slot by slot, the store loaded from the snapshot of `s` has the flags of `s`
and, in the occupied slots, the keys and values of `s` as C strings. -/
theorem load_save_slot (s : kv_store_t) (hs : SnapInv s) (kb vb : List Nat)
    (j : Fin TABLE_SIZE) :
    ((kv_store_load emptyStore (some (kv_store_save s)) kb vb) j).is_occupied
        = (s j).is_occupied ∧
      ((s j).is_occupied = true →
        cstr ((kv_store_load emptyStore (some (kv_store_save s)) kb vb) j).key
          = cstr (s j).key ∧
        cstr ((kv_store_load emptyStore (some (kv_store_save s)) kb vb) j).value
          = cstr (s j).value) := by
  have hload : kv_store_load emptyStore (some (kv_store_save s)) kb vb
      = (List.finRange TABLE_SIZE).foldl (loadStep s) emptyStore := by
    unfold kv_store_load kv_store_save
    exact loadLoop_entries s hs _ _ _ _ _ (le_refl _)
  rw [hload]
  obtain ⟨h1, h2⟩ := foldl_loadStep s hs (List.finRange TABLE_SIZE) emptyStore j
  cases ho : (s j).is_occupied with
  | true =>
    obtain ⟨a, b, c⟩ := h1 ⟨List.mem_finRange j, ho⟩
    exact ⟨a, fun _ => ⟨b, c⟩⟩
  | false =>
    rw [h2 (by simp [ho])]
    exact ⟨rfl, fun h => by cases h⟩

/-- Every get on the store loaded from the snapshot of `s` gives the status and
the value it gives on `s`. -/
theorem load_save_get (s : kv_store_t) (hs : SnapInv s) (kb vb k out : List Nat) :
    (kv_store_get (kv_store_load emptyStore (some (kv_store_save s)) kb vb) k out).1
        = (kv_store_get s k out).1 ∧
      (kv_store_get (kv_store_load emptyStore (some (kv_store_save s)) kb vb) k out).2.2
        = (kv_store_get s k out).2.2 := by
  obtain ⟨h1, h2⟩ := load_save_slot s hs kb vb (hash k)
  exact kv_store_get_slot _ s k out h1 (fun h => h2 (by rw [← h1]; exact h))

theorem emptyStore_snapInv : SnapInv emptyStore := by
  intro i hi
  simp [emptyStore] at hi

theorem kv_store_put_snapInv (s : kv_store_t) (k v : List Nat) (hs : SnapInv s)
    (hk : strlen k < 31) (hkc : 44 ∉ cstr k) (hkn : 10 ∉ cstr k)
    (hv : strlen v < 255) (hvn : 10 ∉ cstr v) : SnapInv (kv_store_put s k v).2 := by
  rw [kv_store_put_of_lt s k v (by unfold MAX_KEY_SIZE; omega)]
  have hkey : cstr (strncpy (s (hash k)).key k (MAX_KEY_SIZE - 1)) = cstr k :=
    cstr_strncpy_of_lt _ _ _ (by unfold MAX_KEY_SIZE; omega)
  have hval : cstr (strncpy (s (hash k)).value v (MAX_VALUE_SIZE - 1)) = cstr v :=
    cstr_strncpy_of_lt _ _ _ (by unfold MAX_VALUE_SIZE; omega)
  intro i
  by_cases hi : i = hash k
  · subst hi
    intro _
    simp only [Function.update_same]
    unfold strlen at *
    rw [hkey, hval]
    exact ⟨hk, hkc, hkn, hv, hvn, hash_congr hkey⟩
  · simp only [Function.update_noteq hi]
    exact hs i

theorem kv_store_delete_snapInv (s : kv_store_t) (k : List Nat) (hs : SnapInv s) :
    SnapInv (kv_store_delete s k).2 := by
  unfold kv_store_delete
  simp only
  split
  · exact hs
  · intro i
    by_cases hi : i = hash k
    · subst hi
      simp
    · simp only [Function.update_noteq hi]
      exact hs i

theorem applyOps_snapInv (ops : List Op) (s : kv_store_t) (hs : SnapInv s)
    (hops : ∀ op ∈ ops, snapshotSafe op = true) : SnapInv (applyOps s ops) := by
  induction ops generalizing s with
  | nil => exact hs
  | cons op rest ih =>
    refine ih (applyOp s op) ?_ (fun o ho => hops o (List.mem_cons_of_mem _ ho))
    have hop := hops op (List.mem_cons_self _ _)
    cases op with
    | put k v =>
      simp only [snapshotSafe, decide_eq_true_eq] at hop
      obtain ⟨a, b, c, d, e⟩ := hop
      exact kv_store_put_snapInv s k v hs a b c d e
    | delete k => exact kv_store_delete_snapInv s k hs

/-- One put on the empty store, a save, a load into an empty store, a get: the
value comes back, commas included, since the load cuts the line at its first
comma and the key has none. -/
theorem put_save_load_get (k v kb vb out : List Nat)
    (hk : strlen k < 31) (hkc : 44 ∉ cstr k) (hkn : 10 ∉ cstr k)
    (hv : strlen v < 255) (hvn : 10 ∉ cstr v) :
    (kv_store_get
        (kv_store_load emptyStore (some (kv_store_save (kv_store_put emptyStore k v).2)) kb vb)
        k out).1 = KV_SUCCESS ∧
      cstr (kv_store_get
        (kv_store_load emptyStore (some (kv_store_save (kv_store_put emptyStore k v).2)) kb vb)
        k out).2.2 = cstr v := by
  have hinv := kv_store_put_snapInv emptyStore k v emptyStore_snapInv hk hkc hkn hv hvn
  obtain ⟨h1, h2⟩ := load_save_get _ hinv kb vb k out
  rw [h1, h2]
  exact (put_then_get emptyStore k v out hk hv).2

/-! ## Facts on the hash -/

theorem polySum_cons (b : Nat) (bs : List Nat) :
    polySum (b :: bs) = b * 31 ^ bs.length + polySum bs := by
  unfold polySum
  rw [List.length_cons, List.range_succ_eq_map, List.map_cons, List.sum_cons, List.map_map]
  congr 1
  congr 1
  apply List.map_congr_left
  intro i _
  simp only [Function.comp, Nat.succ_eq_add_one, List.getD_cons_succ]
  congr 2
  omega

/-- The loop of the hash, reduced modulo the table size, is the Horner form of
the sum: the wrap-around at `2 ^ 32` is invisible modulo 1024. -/
theorem hashLoop_mod (key : List Nat) (h : Nat) (hb : ∀ b ∈ key, 1 ≤ b ∧ b ≤ 127) :
    hashLoop key h % TABLE_SIZE = (h * 31 ^ key.length + polySum key) % TABLE_SIZE := by
  induction key generalizing h with
  | nil => simp [hashLoop, polySum]
  | cons c cs ih =>
    have hc := hb c (List.mem_cons_self _ _)
    have hc0 : c ≠ 0 := by omega
    have hcu : charToUInt c = c := by unfold charToUInt; rw [if_pos (by omega)]
    simp only [hashLoop, if_neg hc0, hcu]
    rw [ih _ (fun b hb1 => hb b (List.mem_cons_of_mem _ hb1)), polySum_cons]
    have hmod : (h * 31 + c) % 2 ^ 32 ≡ h * 31 + c [MOD TABLE_SIZE] :=
      Nat.mod_mod_of_dvd _ (by decide)
    have h2 := (hmod.mul_right (31 ^ cs.length)).add_right (polySum cs)
    have h3 : (h * 31 + c) * 31 ^ cs.length + polySum cs
        = h * 31 ^ (c :: cs).length + (c * 31 ^ cs.length + polySum cs) := by
      rw [List.length_cons, pow_succ]
      ring
    rw [← h3]
    exact h2

/-! ## Facts on the slots of a reachable store -/

/-- An array whose byte `n` is its last and is NUL has `n + 1` bytes and holds a
C string of at most `n` bytes. -/
theorem strlen_le_of_drop (a : List Nat) (n : Nat) (h : a.drop n = [0]) :
    a.length = n + 1 ∧ strlen a ≤ n := by
  have hl : (a.drop n).length = 1 := by rw [h]; rfl
  rw [List.length_drop] at hl
  refine ⟨by omega, ?_⟩
  have ha : a = a.take n ++ [0] := by
    conv_lhs => rw [← List.take_append_drop n a, h]
  unfold strlen cstr
  rw [ha, List.takeWhile_append]
  have ht : (List.takeWhile (fun c => decide (c ≠ 0)) (a.take n)).length ≤ (a.take n).length :=
    (List.takeWhile_sublist _).length_le
  have hn : (a.take n).length ≤ n := by simp
  split
  · simp
  · omega

theorem kv_store_get_store (s : kv_store_t) (k out : List Nat) :
    (kv_store_get s k out).2.1 = s := by
  unfold kv_store_get
  simp only
  split <;> rfl

theorem kv_store_put_ownBucket (s : kv_store_t) (k v : List Nat) (hs : StoreWF s)
    (h : OwnBucket s) : OwnBucket (kv_store_put s k v).2 := by
  unfold kv_store_put
  split
  · exact h
  · intro i
    by_cases hi : i = hash k
    · subst hi
      intro _
      simp only [Function.update_same]
      exact hash_congr (cstr_strncpy_of_le _ _ _ (by omega) (hs _).1)
    · simp only [Function.update_noteq hi]
      exact h i

theorem kv_store_delete_ownBucket (s : kv_store_t) (k : List Nat) (h : OwnBucket s) :
    OwnBucket (kv_store_delete s k).2 := by
  unfold kv_store_delete
  simp only
  split
  · exact h
  · intro i
    by_cases hi : i = hash k
    · subst hi
      simp
    · simp only [Function.update_noteq hi]
      exact h i

theorem applyCalls_inv (calls : List Call) (s : kv_store_t) (hs : StoreWF s)
    (h : OwnBucket s) : StoreWF (applyCalls s calls) ∧ OwnBucket (applyCalls s calls) := by
  induction calls generalizing s with
  | nil => exact ⟨hs, h⟩
  | cons c rest ih =>
    cases c with
    | put k v =>
      exact ih _ (kv_store_put_wf s k v hs) (kv_store_put_ownBucket s k v hs h)
    | get k out =>
      have e : applyCall s (Call.get k out) = s := kv_store_get_store s k out
      have hr : applyCalls s (Call.get k out :: rest) = applyCalls s rest := by
        show applyCalls (applyCall s (Call.get k out)) rest = applyCalls s rest
        rw [e]
      rw [hr]
      exact ih s hs h
    | delete k =>
      exact ih _ (kv_store_delete_wf s k hs) (kv_store_delete_ownBucket s k h)

/-! ## Facts on the frames of the client -/

/-- An array filled by `strncpy` with one byte less than its size and then
closed by a NUL in its last byte. -/
theorem strncpy_set (dst src : List Nat) (n : Nat) (hd : dst.length = n + 1) :
    (strncpy dst src n).set n 0 = (cstr src ++ List.replicate n 0).take n ++ [0] := by
  unfold strncpy
  have hl : ((cstr src ++ List.replicate n 0).take n).length = n := by simp
  obtain ⟨x, hx⟩ : ∃ x, dst.drop n = [x] := by
    have h1 : (dst.drop n).length = 1 := by rw [List.length_drop]; omega
    match hdn : dst.drop n, h1 with
    | [x], _ => exact ⟨x, rfl⟩
  rw [hx, List.set_append_right _ _ (by omega), hl]
  simp

/-- The C string of such an array: the source cut at `n` bytes. -/
theorem cstr_take_pad (src tail : List Nat) (n : Nat) :
    cstr ((cstr src ++ List.replicate n 0).take n ++ 0 :: tail) = (cstr src).take n := by
  rcases Nat.lt_or_ge (cstr src).length n with hlt | hge
  · rw [List.take_append_eq_append_take, List.take_of_length_le (by omega), List.append_assoc]
    have hz : ∃ r, List.take (n - (cstr src).length) (List.replicate n 0) ++ 0 :: tail
        = 0 :: r := by
      have h2 : n - (cstr src).length = (n - (cstr src).length - 1) + 1 := by omega
      rw [List.take_replicate, Nat.min_eq_left (by omega), h2, List.replicate_succ]
      exact ⟨_, rfl⟩
    obtain ⟨r, hr⟩ := hz
    rw [hr]
    exact cstr_append_zero (cstr_ne_zero src) r
  · rw [List.take_append_of_le_length hge]
    exact cstr_append_zero (fun c hc => cstr_ne_zero src c (List.mem_of_mem_take hc)) tail

/-- The key array of the frame of a put: the first 31 bytes of the key and a
NUL, when the key has 31 bytes or more. -/
theorem put_msg_key (msg : kv_message_t) (hm : FrameSized msg) (k v : List Nat)
    (hk : 31 ≤ strlen k) : (kv_client_put_msg msg k v).key = (cstr k).take 31 ++ [0] := by
  show (strncpy msg.key k 31).set 31 0 = _
  rw [strncpy_set _ _ 31 hm.1]
  show List.take 31 (cstr k ++ List.replicate 31 0) ++ [0] = _
  rw [List.take_append_of_le_length hk]

theorem put_msg_value (msg : kv_message_t) (hm : FrameSized msg) (k v : List Nat) :
    cstr (kv_client_put_msg msg k v).value = (cstr v).take 255 := by
  show cstr ((strncpy msg.value v 255).set 255 0) = _
  rw [strncpy_set _ _ 255 hm.2]
  exact cstr_take_pad v [] 255

theorem get_msg_key (msg : kv_message_t) (hm : FrameSized msg) (k : List Nat)
    (hk : 31 ≤ strlen k) : (kv_client_get_msg msg k).key = (cstr k).take 31 ++ [0] := by
  show (strncpy msg.key k 31).set 31 0 = _
  rw [strncpy_set _ _ 31 hm.1]
  show List.take 31 (cstr k ++ List.replicate 31 0) ++ [0] = _
  rw [List.take_append_of_le_length hk]

/-- The first 31 bytes of a key of 31 bytes or more, as a C string. -/
theorem cstr_first_bytes (k : List Nat) (hk : 31 ≤ strlen k) :
    cstr ((cstr k).take 31 ++ [0]) = (cstr k).take 31 ∧ strlen ((cstr k).take 31 ++ [0]) = 31 := by
  have h : cstr ((cstr k).take 31 ++ [0]) = (cstr k).take 31 :=
    cstr_append_zero (fun c hc => cstr_ne_zero k c (List.mem_of_mem_take hc)) []
  refine ⟨h, ?_⟩
  unfold strlen at *
  rw [h, List.length_take]
  omega

/-- The worker on a PUT frame: the status and the store of `kv_store_put`. -/
theorem dispatch_put (s : kv_store_t) (m : kv_message_t) (wv : List Nat)
    (hm : m.type = MSG_PUT) :
    dispatch s m wv = ((kv_store_put s m.key m.value).2, wv,
      [Sent.status (kv_store_put s m.key m.value).1]) := by
  unfold dispatch
  rw [if_pos hm]

/-- The worker on a GET frame whose key occupies its slot. -/
theorem dispatch_get_hit (s : kv_store_t) (m : kv_message_t) (wv : List Nat)
    (hm : m.type = MSG_GET) (ho : (s (hash m.key)).is_occupied = true)
    (hk : cstr (s (hash m.key)).key = cstr m.key) :
    dispatch s m wv = (s, strncpy wv (s (hash m.key)).value (MAX_VALUE_SIZE - 1),
      [Sent.status KV_SUCCESS,
        Sent.buffer ((strncpy wv (s (hash m.key)).value (MAX_VALUE_SIZE - 1)).take
          MAX_VALUE_SIZE)]) := by
  have hne : ¬ (m.type = MSG_PUT) := by rw [hm]; decide
  unfold dispatch
  rw [if_neg hne, if_pos hm, kv_store_get_of_match s m.key wv ho hk]
  simp

/-- A put of a key of 31 bytes or more through the client: the status is
`KV_SUCCESS` and the store is the one after a put of the first 31 bytes of the
key with the first 255 bytes of the value. -/
theorem remote_put_eq (s : kv_store_t) (c : kv_client_t) (hc : c.is_connected = true)
    (msg : kv_message_t) (hm : FrameSized msg) (wv k v : List Nat) (hk : 31 ≤ strlen k) :
    remote_put s c k v msg wv
      = (KV_SUCCESS, (kv_store_put s ((cstr k).take 31) ((cstr v).take 255)).2) := by
  have hkey := put_msg_key msg hm k v hk
  obtain ⟨hp1, hp2⟩ := cstr_first_bytes k hk
  have hP : cstr ((cstr k).take 31) = (cstr k).take 31 :=
    cstr_of_ne_zero (fun x hx => cstr_ne_zero k x (List.mem_of_mem_take hx))
  have hV : cstr ((cstr v).take 255) = (cstr v).take 255 :=
    cstr_of_ne_zero (fun x hx => cstr_ne_zero v x (List.mem_of_mem_take hx))
  have hput : kv_store_put s (kv_client_put_msg msg k v).key (kv_client_put_msg msg k v).value
      = kv_store_put s ((cstr k).take 31) ((cstr v).take 255) :=
    kv_store_put_congr s (by rw [hkey, hp1, hP]) (by rw [put_msg_value msg hm, hV])
  have hst : (kv_store_put s ((cstr k).take 31) ((cstr v).take 255)).1 = KV_SUCCESS := by
    rw [kv_store_put_status]
    unfold strlen
    rw [hP, List.length_take]
    unfold MAX_KEY_SIZE
    omega
  unfold remote_put
  rw [if_neg (by simp [hc]), dispatch_put s _ wv rfl, hput]
  simp only [hst, deliver, kv_client_put, hc]
  simp

/-- The client on a `KV_SUCCESS` status followed by the 256 bytes of the value
array, all received: the bytes, with a NUL written over the last one. -/
theorem kv_client_get_full (c : kv_client_t) (hc : c.is_connected = true)
    (key out : List Nat) (msg : kv_message_t) (a : List Nat) (x : Nat) (ha : a.length = 255) :
    (kv_client_get c key out msg (deliver [Sent.status KV_SUCCESS, Sent.buffer (a ++ [x])])).1
        = KV_SUCCESS ∧
      (kv_client_get c key out msg (deliver [Sent.status KV_SUCCESS, Sent.buffer (a ++ [x])])).2.1
        = a ++ 0 :: out.drop 256 := by
  have hl : (a ++ [x]).length = 256 := by rw [List.length_append, ha]; rfl
  have hpos : ¬ (((a ++ [x]).length : Nat) : Int) ≤ 0 := by rw [hl]; decide
  have hset : ((a ++ [x]) ++ out.drop (a ++ [x]).length).set (MAX_VALUE_SIZE - 1) 0
      = a ++ 0 :: out.drop 256 := by
    rw [hl, List.append_assoc]
    show List.set _ 255 0 = _
    rw [List.set_append_right _ _ (by omega), ha]
    rfl
  unfold kv_client_get
  simp only [deliver, hc]
  simp only [ne_eq, not_true_eq_false, if_false, if_true, hpos, Bool.true_eq_false, hset]
  exact ⟨trivial, trivial⟩

/-- A get of a key of 31 bytes or more through the client, when the slot of the
first 31 bytes of the key is occupied by them: the status is `KV_SUCCESS` and
the value array of the caller holds the stored value as a C string. -/
theorem remote_get_eq (s : kv_store_t) (hs : StoreWF s) (c : kv_client_t)
    (hc : c.is_connected = true) (msg : kv_message_t) (hm : FrameSized msg)
    (wv : List Nat) (hwv : wv.length = MAX_VALUE_SIZE) (k out : List Nat) (hk : 31 ≤ strlen k)
    (ho : (s (hash ((cstr k).take 31))).is_occupied = true)
    (hkey : cstr (s (hash ((cstr k).take 31))).key = (cstr k).take 31) :
    (remote_get s c k out msg wv).1 = KV_SUCCESS ∧
      cstr (remote_get s c k out msg wv).2 = cstr (s (hash ((cstr k).take 31))).value := by
  have hmk := get_msg_key msg hm k hk
  obtain ⟨hp1, _⟩ := cstr_first_bytes k hk
  have hP : cstr ((cstr k).take 31) = (cstr k).take 31 :=
    cstr_of_ne_zero (fun x hx => cstr_ne_zero k x (List.mem_of_mem_take hx))
  have hh : hash (kv_client_get_msg msg k).key = hash ((cstr k).take 31) :=
    hash_congr (by rw [hmk, hp1, hP])
  have hlen : strlen (s (hash ((cstr k).take 31))).value ≤ 255 :=
    (strlen_le_of_drop _ _ (hs _).2).2
  have hd := dispatch_get_hit s (kv_client_get_msg msg k) wv rfl (by rw [hh]; exact ho)
    (by rw [hh, hkey, hmk, hp1])
  rw [hh] at hd
  obtain ⟨x, hx⟩ : ∃ x, wv.drop 255 = [x] := by
    have h1 : (wv.drop 255).length = 1 := by rw [List.length_drop, hwv]; rfl
    match hdn : wv.drop 255, h1 with
    | [x], _ => exact ⟨x, rfl⟩
  have hal : ((cstr (s (hash ((cstr k).take 31))).value ++ List.replicate 255 0).take 255).length
      = 255 := by
    rw [List.length_take, List.length_append, List.length_replicate]
    omega
  have hbuf : (strncpy wv (s (hash ((cstr k).take 31))).value (MAX_VALUE_SIZE - 1)).take
      MAX_VALUE_SIZE
      = (cstr (s (hash ((cstr k).take 31))).value ++ List.replicate 255 0).take 255 ++ [x] := by
    show (strncpy wv _ 255).take 256 = _
    unfold strncpy
    rw [hx]
    apply List.take_of_length_le
    rw [List.length_append, hal]
    exact Nat.le_refl 256
  rw [hbuf] at hd
  obtain ⟨g1, g2⟩ := kv_client_get_full c hc k out msg _ x hal
  unfold remote_get
  rw [if_neg (by simp [hc])]
  simp only [hd]
  refine ⟨g1, ?_⟩
  rw [g2, cstr_take_pad, List.take_of_length_le hlen]

/-- The slot of a key of 31 bytes after a put of it in a store with terminated
arrays: occupied by the key, with the value cut at 255 bytes. -/
theorem put_short_key_slot (s : kv_store_t) (hs : StoreWF s) (p v : List Nat)
    (hp0 : ∀ c ∈ p, c ≠ 0) (hpl : p.length ≤ 31) (hv : strlen v ≤ 255) :
    ((kv_store_put s p v).2 (hash p)).is_occupied = true ∧
      cstr ((kv_store_put s p v).2 (hash p)).key = p ∧
      cstr ((kv_store_put s p v).2 (hash p)).value = cstr v := by
  have hcp : cstr p = p := cstr_of_ne_zero hp0
  have hlen : strlen p ≤ 31 := by unfold strlen; rw [hcp]; exact hpl
  rw [kv_store_put_of_lt s p v (by unfold MAX_KEY_SIZE; omega)]
  simp only [Function.update_same]
  refine ⟨trivial, ?_, ?_⟩
  · exact (cstr_strncpy_of_le _ _ _ hlen (hs _).1).trans hcp
  · exact cstr_strncpy_of_le _ _ _ hv (hs _).2

/-! ## Facts on the lines of a text and on the load of any text -/

theorem splitLines_cons (c : Nat) (cs : List Nat) (hc : c ≠ 10) :
    splitLines (c :: cs) =
      match splitLines cs with
      | [] => [[c]]
      | l :: ls => (c :: l) :: ls := by
  rw [splitLines, if_neg hc]

theorem splitLines_line (l rest : List Nat) (hl : 10 ∉ l) :
    splitLines (l ++ 10 :: rest) = l :: splitLines rest := by
  induction l with
  | nil => simp [splitLines]
  | cons c cs ih =>
    have hc : c ≠ 10 := fun h => hl (by simp [h])
    have hcs : 10 ∉ cs := fun h => hl (by simp [h])
    rw [List.cons_append, splitLines_cons c _ hc, ih hcs]

theorem splitLines_last (l : List Nat) (hl : 10 ∉ l) (hne : l ≠ []) : splitLines l = [l] := by
  induction l with
  | nil => exact absurd rfl hne
  | cons c cs ih =>
    have hc : c ≠ 10 := fun h => hl (by simp [h])
    have hcs : 10 ∉ cs := fun h => hl (by simp [h])
    cases cs with
    | nil => simp [splitLines, hc]
    | cons d ds =>
      have h := ih hcs (by simp)
      rw [splitLines_cons c _ hc, h]

/-- A text is its first line, then nothing or a newline and the rest. -/
theorem text_first_line (text : List Nat) :
    ∃ l, 10 ∉ l ∧ (text = l ∨ ∃ rest, text = l ++ 10 :: rest) := by
  induction text with
  | nil => exact ⟨[], by simp, Or.inl rfl⟩
  | cons c cs ih =>
    by_cases hc : c = 10
    · exact ⟨[], by simp, Or.inr ⟨cs, by simp [hc]⟩⟩
    · obtain ⟨l, hl, h⟩ := ih
      refine ⟨c :: l, ?_, ?_⟩
      · simp only [List.mem_cons, not_or]
        exact ⟨fun h => hc h.symm, hl⟩
      · rcases h with h | ⟨rest, h⟩
        · exact Or.inl (by rw [h])
        · exact Or.inr ⟨rest, by rw [h]; rfl⟩

/-- A line with a comma is its key, the comma and its value. -/
theorem record_split (l : List Nat) (h : 44 ∈ l) :
    l = recordKey l ++ 44 :: recordValue l ∧ 44 ∉ recordKey l := by
  unfold recordKey recordValue
  constructor
  · induction l with
    | nil => simp at h
    | cons c cs ih =>
      by_cases hc : c = 44
      · subst hc
        simp
      · have hcs : 44 ∈ cs := by
          rcases List.mem_cons.1 h with h | h
          · exact absurd h.symm hc
          · exact h
        have := ih hcs
        simp only [List.takeWhile_cons, List.dropWhile_cons, hc, ne_eq, not_false_eq_true,
          decide_True, if_true, List.cons_append]
        rw [← this]
  · intro hm
    have := List.mem_takeWhile_imp hm
    simp at this

theorem record_of_split (key val : List Nat) (hk : 44 ∉ key) :
    recordKey (key ++ 44 :: val) = key ∧ recordValue (key ++ 44 :: val) = val := by
  unfold recordKey recordValue
  have hp : ∀ a ∈ key, (decide (a ≠ 44)) = true := by
    intro a ha
    have : a ≠ 44 := fun h => hk (h ▸ ha)
    simpa using this
  constructor
  · rw [List.takeWhile_append_of_pos hp]
    simp
  · rw [List.dropWhile_append_of_pos hp]
    simp

theorem strlen_le_length (p : List Nat) : strlen p ≤ p.length :=
  (List.takeWhile_sublist _).length_le

theorem mem_of_mem_cstr {p : List Nat} {c : Nat} (h : c ∈ cstr p) : c ∈ p :=
  (List.takeWhile_sublist _).subset h

/-- The body of the load loop on a line without comma: nothing. -/
theorem loadLine_skip (t : kv_store_t) (kb vb line : List Nat) (h : 44 ∉ line) :
    loadLine t kb vb line = (t, kb, vb) := by
  unfold loadLine strchr
  rw [if_neg (fun hm => h (mem_of_mem_cstr hm))]

/-- What `fgets` reads and what it leaves make up the stream. -/
theorem fgetsAux_append (n : Nat) (stream : List Nat) :
    (fgetsAux n stream).1 ++ (fgetsAux n stream).2 = stream := by
  induction stream generalizing n with
  | nil => cases n <;> simp [fgetsAux]
  | cons c cs ih =>
    cases n with
    | zero => simp [fgetsAux]
    | succ m =>
      unfold fgetsAux
      split
      · rename_i hc
        simp [hc]
      · simp [ih m]

/-- A line without newline that fits is read whole at the end of the file. -/
theorem fgetsAux_all (n : Nat) (l : List Nat) (hl : l.length ≤ n) (hn : 10 ∉ l) :
    fgetsAux n l = (l, []) := by
  induction l generalizing n with
  | nil => cases n <;> simp [fgetsAux]
  | cons c cs ih =>
    obtain ⟨m, rfl⟩ : ∃ m, n = m + 1 := ⟨n - 1, by simp at hl; omega⟩
    have hc : c ≠ 10 := fun h => hn (by simp [h])
    have hcs : 10 ∉ cs := fun h => hn (by simp [h])
    have h := ih m (by simp at hl; omega) hcs
    simp [fgetsAux, hc, h]

/-- A line longer than the limit is read up to the limit. -/
theorem fgetsAux_chunk (n : Nat) (l r : List Nat) (hl : n ≤ l.length) (hn : 10 ∉ l) :
    fgetsAux n (l ++ r) = (l.take n, l.drop n ++ r) := by
  induction n generalizing l with
  | zero => simp [fgetsAux]
  | succ m ih =>
    cases l with
    | nil => simp at hl
    | cons c cs =>
      have hc : c ≠ 10 := fun h => hn (by simp [h])
      have hcs : 10 ∉ cs := fun h => hn (by simp [h])
      have h := ih cs (by simp at hl; omega) hcs
      simp [fgetsAux, hc, h]

/-- Size of the line array of the load, less the terminator. -/
theorem line_limit : MAX_KEY_SIZE + MAX_VALUE_SIZE + 2 - 1 = 289 := rfl

/-- One turn of the load loop on a stream that is not at its end. -/
theorem loadLoop_succ (f : Nat) (t : kv_store_t) (kb vb stream : List Nat) (h : stream ≠ []) :
    loadLoop (f + 1) t kb vb stream
      = loadLoop f (loadLine t kb vb (fgetsAux 289 stream).1).1
          (loadLine t kb vb (fgetsAux 289 stream).1).2.1
          (loadLine t kb vb (fgetsAux 289 stream).1).2.2 (fgetsAux 289 stream).2 := by
  rw [loadLoop]
  unfold fgets
  rw [if_neg h, line_limit]

/-- A text without any comma is skipped whole. -/
theorem loadLoop_skip_all (fuel : Nat) (t : kv_store_t) (kb vb l : List Nat) (h : 44 ∉ l) :
    loadLoop fuel t kb vb l = t := by
  induction fuel generalizing l with
  | zero => rfl
  | succ f ih =>
    by_cases hl : l = []
    · subst hl
      exact loadLoop_nil _ t kb vb
    · have happ := fgetsAux_append 289 l
      have h1 : 44 ∉ (fgetsAux 289 l).1 :=
        fun hm => h (by rw [← happ]; exact List.mem_append_left _ hm)
      have h2 : 44 ∉ (fgetsAux 289 l).2 :=
        fun hm => h (by rw [← happ]; exact List.mem_append_right _ hm)
      rw [loadLoop_succ f t kb vb l hl, loadLine_skip t kb vb _ h1]
      exact ih _ h2

/-- A line without comma is skipped, in as many reads as its length asks. -/
theorem loadLoop_skip_line (fuel : Nat) (t : kv_store_t) (kb vb rest : List Nat) :
    ∀ l : List Nat, 44 ∉ l → 10 ∉ l → (l ++ 10 :: rest).length ≤ fuel →
      loadLoop fuel t kb vb (l ++ 10 :: rest) = loadLoop rest.length t kb vb rest := by
  induction fuel with
  | zero =>
    intro l _ _ hf
    simp at hf
  | succ f ih =>
    intro l hc hn hf
    have hlen : l.length + rest.length ≤ f := by
      simp only [List.length_append, List.length_cons] at hf
      omega
    rw [loadLoop_succ f t kb vb _ (by simp)]
    rcases Nat.lt_or_ge l.length 289 with hlt | hge
    · rw [fgetsAux_line 289 l rest hlt hn]
      have hc1 : 44 ∉ l ++ [10] := by
        simp only [List.mem_append, List.mem_singleton, not_or]
        exact ⟨hc, by decide⟩
      rw [loadLine_skip t kb vb _ hc1]
      exact loadLoop_fuel f rest.length t kb vb rest (by omega) (le_refl _)
    · rw [fgetsAux_chunk 289 l (10 :: rest) hge hn]
      have hc1 : 44 ∉ l.take 289 := fun hm => hc (List.mem_of_mem_take hm)
      rw [loadLine_skip t kb vb _ hc1]
      have hd : (l.drop 289 ++ 10 :: rest).length ≤ f := by
        simp only [List.length_append, List.length_cons, List.length_drop]
        omega
      exact ih (l.drop 289) (fun hm => hc (List.mem_of_mem_drop hm))
        (fun hm => hn (List.mem_of_mem_drop hm)) hd

/-- The loop body of the load on a last line `key,value` without newline. -/
theorem loadLine_record_eof (s : kv_store_t) (kb vb key val : List Nat)
    (hk0 : ∀ c ∈ key, c ≠ 0) (hkc : 44 ∉ key) (hkl : key.length < 31)
    (hv0 : ∀ c ∈ val, c ≠ 0) (hvn : 10 ∉ val) (hvl : val.length < 255) :
    (loadLine s kb vb (key ++ [44] ++ val)).1 = (kv_store_put s key val).2 := by
  have hline0 : ∀ c ∈ key ++ [44] ++ val, c ≠ 0 := by
    intro c hc
    simp only [List.mem_append, List.mem_singleton] at hc
    rcases hc with (hc | hc) | hc
    · exact hk0 c hc
    · omega
    · exact hv0 c hc
  have hcs : cstr (key ++ [44] ++ val) = key ++ [44] ++ val := cstr_of_ne_zero hline0
  have hchr : strchr (key ++ [44] ++ val) 44 = some key.length := by
    unfold strchr
    rw [hcs, if_pos (by simp)]
    simp [List.indexOf_append_of_not_mem hkc]
  unfold loadLine
  rw [hchr]
  simp only
  have hset : (key ++ [44] ++ val).set key.length 0 = key ++ 0 :: val := by simp
  have hdrop : (key ++ 0 :: val).drop (key.length + 1) = val := by simp
  rw [hset, hdrop]
  have hkey : cstr (key ++ 0 :: val) = key := cstr_append_zero hk0 _
  have hkey1 : cstr (strncpy kb (key ++ 0 :: val) (MAX_KEY_SIZE - 1)) = cstr key := by
    rw [cstr_strncpy_of_lt _ _ _ (by unfold strlen; rw [hkey]; exact hkl), hkey,
      cstr_of_ne_zero hk0]
  have hcv : cstr val = val := cstr_of_ne_zero hv0
  have hsl : strlen val < MAX_VALUE_SIZE - 1 := by unfold strlen; rw [hcv]; exact hvl
  have hv1 := strncpy_of_lt vb val (MAX_VALUE_SIZE - 1) hsl
  rw [hcv] at hv1
  have hspn : strcspn_nl (val ++ 0 :: (List.replicate (MAX_VALUE_SIZE - 1 - strlen val - 1) 0
          ++ vb.drop (MAX_VALUE_SIZE - 1))) = val.length := by
    unfold strcspn_nl
    rw [List.takeWhile_append_of_pos]
    · simp
    · intro c hc
      have h1 := hv0 c hc
      have h2 : c ≠ 10 := fun h => hvn (h ▸ hc)
      simp [h1, h2]
  rw [hv1, hspn]
  have hv2 : (val ++ 0 :: (List.replicate (MAX_VALUE_SIZE - 1 - strlen val - 1) 0
          ++ vb.drop (MAX_VALUE_SIZE - 1))).set val.length 0
      = val ++ 0 :: (List.replicate (MAX_VALUE_SIZE - 1 - strlen val - 1) 0
          ++ vb.drop (MAX_VALUE_SIZE - 1)) := by
    simp
  rw [hv2]
  have hval : cstr (val ++ 0 :: (List.replicate (MAX_VALUE_SIZE - 1 - strlen val - 1) 0
          ++ vb.drop (MAX_VALUE_SIZE - 1))) = cstr val := by
    rw [cstr_append_zero hv0, hcv]
  exact congrArg Prod.snd (kv_store_put_congr s hkey1 hval)

/-- A line with a comma that passes `lineOk`, taken apart. -/
theorem record_parts (l : List Nat) (hc : 44 ∈ l) (hok : lineOk l = true) :
    ∃ key val, l = key ++ 44 :: val ∧ 44 ∉ key ∧ recordKey l = key ∧ recordValue l = val ∧
      key.length < 31 ∧ val.length < 255 := by
  simp only [lineOk, decide_eq_true_eq] at hok
  rcases hok with h | ⟨h1, h2⟩
  · exact absurd hc h
  · exact ⟨_, _, (record_split l hc).1, (record_split l hc).2, rfl, rfl, h1, h2⟩

/-- The load loop on a text of lines that pass `lineOk` is the sequence of puts
that the specification words; a fuel of the text length is enough. -/
theorem loadLoop_spec (n : Nat) :
    ∀ text : List Nat, text.length ≤ n → (∀ c ∈ text, c ≠ 0) →
      (∀ l ∈ splitLines text, lineOk l = true) →
      ∀ (t : kv_store_t) (kb vb : List Nat),
        loadLoop text.length t kb vb text = (splitLines text).foldl putLine t := by
  induction n with
  | zero =>
    intro text hlen _ _ t kb vb
    have : text = [] := List.length_eq_zero.1 (by omega)
    subst this
    rfl
  | succ n ih =>
    intro text hlen h0 hok t kb vb
    obtain ⟨l, hl10, hcase⟩ := text_first_line text
    rcases hcase with rfl | ⟨rest, rfl⟩
    · by_cases hne : text = []
      · subst hne
        rfl
      · rw [splitLines_last text hl10 hne] at hok ⊢
        have hlok := hok text (List.mem_singleton_self _)
        show _ = putLine t text
        by_cases hc : 44 ∈ text
        · obtain ⟨key, val, rfl, hkc, hkey, hval, hkl, hvl⟩ := record_parts text hc hlok
          have hk0 : ∀ c ∈ key, c ≠ 0 := fun c hm => h0 c (by simp [hm])
          have hv0 : ∀ c ∈ val, c ≠ 0 := fun c hm => h0 c (by simp [hm])
          have hvn : 10 ∉ val := fun hm => hl10 (by simp [hm])
          have hlen2 : (key ++ 44 :: val).length ≤ 289 := by
            simp only [List.length_append, List.length_cons]
            omega
          rw [loadLoop_fuel _ ((key ++ 44 :: val).length + 1) t kb vb _ (le_refl _) (by omega),
            loadLoop_succ _ t kb vb _ hne, fgetsAux_all 289 _ hlen2 hl10, loadLoop_nil]
          have hform : key ++ 44 :: val = key ++ [44] ++ val := by simp
          rw [hform, loadLine_record_eof t kb vb key val hk0 hkc hkl hv0 hvn hvl, ← hform]
          unfold putLine
          rw [if_pos hc, hkey, hval]
        · rw [loadLoop_skip_all _ t kb vb text hc]
          unfold putLine
          rw [if_neg hc]
    · rw [splitLines_line l rest hl10] at hok ⊢
      have hlok := hok l (List.mem_cons_self _ _)
      have hrest := ih rest
        (by simp only [List.length_append, List.length_cons] at hlen; omega)
        (fun c hm => h0 c (by simp [hm]))
        (fun l1 hm => hok l1 (List.mem_cons_of_mem _ hm))
      rw [List.foldl_cons]
      by_cases hc : 44 ∈ l
      · obtain ⟨key, val, rfl, hkc, hkey, hval, hkl, hvl⟩ := record_parts l hc hlok
        have hk0 : ∀ c ∈ key, c ≠ 0 := fun c hm => h0 c (by simp [hm])
        have hv0 : ∀ c ∈ val, c ≠ 0 := fun c hm => h0 c (by simp [hm])
        have hvn : 10 ∉ val := fun hm => hl10 (by simp [hm])
        have hlen2 : (key ++ 44 :: val).length < 289 := by
          simp only [List.length_append, List.length_cons]
          omega
        rw [loadLoop_fuel _ ((key ++ 44 :: val).length + rest.length + 1) t kb vb _ (le_refl _)
            (by simp only [List.length_append, List.length_cons]; omega),
          loadLoop_succ _ t kb vb _ (by simp), fgetsAux_line 289 _ rest hlen2 hl10]
        have hform : key ++ 44 :: val ++ [10] = key ++ [44] ++ val ++ [10] := by simp
        rw [loadLoop_fuel _ rest.length _ _ _ rest (by omega) (le_refl _), hrest, hform,
          loadLine_record t kb vb key val hk0 hkc hkl hv0 hvn hvl]
        unfold putLine
        rw [if_pos hc, hkey, hval]
      · rw [loadLoop_skip_line _ t kb vb rest l hc hl10 (le_refl _), hrest]
        unfold putLine
        rw [if_neg hc]

/-- A put leaves the slots of the other indices as they were. -/
theorem kv_store_put_other (s : kv_store_t) (k v : List Nat) (i : Fin TABLE_SIZE)
    (hi : i ≠ hash k) : (kv_store_put s k v).2 i = s i := by
  unfold kv_store_put
  split
  · rfl
  · simp only [Function.update_noteq hi]

/-- Lines whose keys have other indices than `i` leave slot `i` as it was. -/
theorem foldl_putLine_other (post : List (List Nat)) (t : kv_store_t) (i : Fin TABLE_SIZE)
    (h : ∀ l ∈ post, 44 ∈ l → hash (recordKey l) ≠ i) : (post.foldl putLine t) i = t i := by
  induction post generalizing t with
  | nil => rfl
  | cons l ls ih =>
    rw [List.foldl_cons, ih _ (fun l1 hm => h l1 (List.mem_cons_of_mem _ hm))]
    unfold putLine
    split
    · rename_i hc
      exact kv_store_put_other t _ _ i (fun e => h l (List.mem_cons_self _ _) hc e.symm)
    · rfl

/-! ## The claims on the table -/

/-- C1 (round-trip).  From any store, a put of a key shorter than 31 bytes with
a value shorter than 255 bytes succeeds, and the get of that key that follows
succeeds and leaves the value, as a C string, in the output array, whatever
the slot and the output array held before. -/
theorem put_get_roundtrip (s : kv_store_t) (k v out : List Nat)
    (hk : strlen k < 31) (hv : strlen v < 255) :
    (kv_store_put s k v).1 = KV_SUCCESS ∧
      (kv_store_get (kv_store_put s k v).2 k out).1 = KV_SUCCESS ∧
      cstr (kv_store_get (kv_store_put s k v).2 k out).2.2 = cstr v :=
  put_then_get s k v out hk hv

/-- Witness of C1: the key "k" and the value "v1" on a slot of the empty store. -/
theorem put_get_roundtrip_witness :
    strlen [107] < 31 ∧ strlen [118, 49] < 255 ∧
      (kv_store_put emptyStore [107] [118, 49]).1 = KV_SUCCESS ∧
      (kv_store_get (kv_store_put emptyStore [107] [118, 49]).2 [107] []).1 = KV_SUCCESS ∧
      cstr (kv_store_get (kv_store_put emptyStore [107] [118, 49]).2 [107] []).2.2
        = cstr [118, 49] :=
  ⟨by decide, by decide, put_get_roundtrip emptyStore [107] [118, 49] [] (by decide) (by decide)⟩

/-- C2 (tombstone).  In a store whose arrays end with a NUL, after a put that
returned `KV_SUCCESS` the delete of the same key returns `KV_SUCCESS` and the
get that follows returns `KV_ERROR_NOT_FOUND`. -/
theorem put_delete_get (s : kv_store_t) (hs : StoreWF s) (k v out : List Nat)
    (hput : (kv_store_put s k v).1 = KV_SUCCESS) :
    (kv_store_delete (kv_store_put s k v).2 k).1 = KV_SUCCESS ∧
      (kv_store_get (kv_store_delete (kv_store_put s k v).2 k).2 k out).1
        = KV_ERROR_NOT_FOUND := by
  have hk : strlen k < MAX_KEY_SIZE := (kv_store_put_status s k v).1 hput
  rw [kv_store_put_of_lt s k v hk]
  have hkey : cstr (strncpy (s (hash k)).key k (MAX_KEY_SIZE - 1)) = cstr k :=
    cstr_strncpy_of_le _ _ _ (by omega) (hs (hash k)).1
  rw [kv_store_delete_of_match _ k (by simp) (by simpa using hkey)]
  refine ⟨rfl, ?_⟩
  rw [kv_store_get_of_miss _ k out (by simp)]

/-- Witness of C2: a key of 31 bytes on the empty store. -/
theorem put_delete_get_witness :
    StoreWF emptyStore ∧
      (kv_store_put emptyStore (List.replicate 31 97) [120]).1 = KV_SUCCESS ∧
      (kv_store_delete (kv_store_put emptyStore (List.replicate 31 97) [120]).2
        (List.replicate 31 97)).1 = KV_SUCCESS ∧
      (kv_store_get (kv_store_delete (kv_store_put emptyStore (List.replicate 31 97) [120]).2
        (List.replicate 31 97)).2 (List.replicate 31 97) []).1 = KV_ERROR_NOT_FOUND :=
  ⟨emptyStore_wf, by decide,
    put_delete_get emptyStore emptyStore_wf (List.replicate 31 97) [120] [] (by decide)⟩

/-- C3 (collision overwrite).  For two different keys with the same slot index,
the second shorter than 31 bytes, after a put of the first and then a put of
the second with a value shorter than 255 bytes, the get of the first returns
`KV_ERROR_NOT_FOUND` and the get of the second returns `KV_SUCCESS` with the
second value.  Nothing is asked of the first key and of the first value. -/
theorem collision_overwrite (s : kv_store_t) (a b v1 v2 out : List Nat)
    (hb : strlen b < 31) (hab : cstr a ≠ cstr b)
    (hh : hash a = hash b) (hv2 : strlen v2 < 255) :
    (kv_store_get (kv_store_put (kv_store_put s a v1).2 b v2).2 a out).1
        = KV_ERROR_NOT_FOUND ∧
      (kv_store_get (kv_store_put (kv_store_put s a v1).2 b v2).2 b out).1 = KV_SUCCESS ∧
      cstr (kv_store_get (kv_store_put (kv_store_put s a v1).2 b v2).2 b out).2.2
        = cstr v2 := by
  have hb2 : strlen b < MAX_KEY_SIZE := by unfold MAX_KEY_SIZE; omega
  refine ⟨?_, (put_then_get _ b v2 out hb hv2).2⟩
  rw [kv_store_put_of_lt _ b v2 hb2]
  have hkey : ∀ d, cstr (strncpy d b (MAX_KEY_SIZE - 1)) = cstr b := fun d =>
    cstr_strncpy_of_lt _ _ _ (by unfold MAX_KEY_SIZE; omega)
  rw [kv_store_get_of_miss _ a out]
  right
  rw [hh]
  simp only [Function.update_same, hkey]
  exact fun h => hab h.symm

/-- Witness of C3: the keys "a" and "!b", both of index 97, on the empty store. -/
theorem collision_overwrite_witness :
    hash [97] = hash [33, 98] ∧ (hash [97]).val = 97 ∧
      (kv_store_get (kv_store_put (kv_store_put emptyStore [97] [49]).2 [33, 98] [50]).2
        [97] []).1 = KV_ERROR_NOT_FOUND ∧
      (kv_store_get (kv_store_put (kv_store_put emptyStore [97] [49]).2 [33, 98] [50]).2
        [33, 98] []).1 = KV_SUCCESS ∧
      cstr (kv_store_get (kv_store_put (kv_store_put emptyStore [97] [49]).2 [33, 98] [50]).2
        [33, 98] []).2.2 = cstr [50] :=
  ⟨by decide, by decide,
    collision_overwrite emptyStore [97] [33, 98] [49] [50] [] (by decide) (by decide)
      (by decide) (by decide)⟩

/-- C4, as stated, fails: a key of exactly 31 bytes is accepted by
`kv_store_put`, which returns `KV_SUCCESS` and occupies the slot of the key;
the test of the code is `strlen(key) >= MAX_KEY_SIZE` with `MAX_KEY_SIZE` 32. -/
theorem put_key_31_accepted :
    strlen (List.replicate 31 97) = 31 ∧
      (kv_store_put emptyStore (List.replicate 31 97) [120]).1 = KV_SUCCESS ∧
      (kv_store_put emptyStore (List.replicate 31 97) [120]).1 ≠ KV_ERROR_INVALID_KEY ∧
      ((kv_store_put emptyStore (List.replicate 31 97) [120]).2
        (hash (List.replicate 31 97))).is_occupied = true ∧
      (emptyStore (hash (List.replicate 31 97))).is_occupied = false := by
  decide

/-- C4, amended.  For every store and every key of 32 bytes or more,
`kv_store_put` returns `KV_ERROR_INVALID_KEY` and the store afterwards is the
store before, so every get (in particular of a stored key with the same slot
index) gives the same status and the same value as before. -/
theorem put_oversize_rejected (s : kv_store_t) (k v : List Nat) (hk : 32 ≤ strlen k) :
    (kv_store_put s k v).1 = KV_ERROR_INVALID_KEY ∧ (kv_store_put s k v).2 = s ∧
      ∀ k2 out, kv_store_get (kv_store_put s k v).2 k2 out = kv_store_get s k2 out := by
  rw [kv_store_put_of_ge s k v hk]
  exact ⟨rfl, rfl, fun _ _ => rfl⟩

/-- Witness of C4 amended: a key of 32 bytes, put over the stored key "a". -/
theorem put_oversize_rejected_witness :
    32 ≤ strlen (List.replicate 32 97) ∧
      (kv_store_put (kv_store_put emptyStore [97] [49]).2 (List.replicate 32 97) [50]).1
        = KV_ERROR_INVALID_KEY ∧
      (kv_store_put (kv_store_put emptyStore [97] [49]).2 (List.replicate 32 97) [50]).2
        = (kv_store_put emptyStore [97] [49]).2 ∧
      ∀ k2 out,
        kv_store_get
            (kv_store_put (kv_store_put emptyStore [97] [49]).2 (List.replicate 32 97) [50]).2
            k2 out
          = kv_store_get (kv_store_put emptyStore [97] [49]).2 k2 out :=
  ⟨by decide, put_oversize_rejected _ (List.replicate 32 97) [50] (by decide)⟩

/-- C5 (unknown key).  After any sequence of puts and deletes on the empty
store in which no put has the key `k`, the get of `k` returns
`KV_ERROR_NOT_FOUND`. -/
theorem get_unknown_key (ops : List Op) (k out : List Nat)
    (hops : ∀ op ∈ ops, putsKey k op = false) :
    (kv_store_get (applyOps emptyStore ops) k out).1 = KV_ERROR_NOT_FOUND := by
  have h : Absent k (applyOps emptyStore ops) :=
    applyOps_absent k ops emptyStore emptyStore_wf (fun i hi => by simp [emptyStore] at hi) hops
  rw [kv_store_get_of_miss _ k out]
  cases ho : ((applyOps emptyStore ops) (hash k)).is_occupied with
  | false => exact Or.inl rfl
  | true => exact Or.inr (h _ ho)

/-- Witness of C5: the key "a" after a put and a delete of "!b", of the same
index, and a put of "c". -/
theorem get_unknown_key_witness :
    (∀ op ∈ [Op.put [33, 98] [50], Op.delete [33, 98], Op.put [99] [51], Op.put [33, 98] [52]],
        putsKey [97] op = false) ∧
      (kv_store_get
        (applyOps emptyStore
          [Op.put [33, 98] [50], Op.delete [33, 98], Op.put [99] [51], Op.put [33, 98] [52]])
        [97] []).1 = KV_ERROR_NOT_FOUND :=
  ⟨by decide, get_unknown_key _ [97] [] (by decide)⟩

/-- C10 (one-slot frame).  A put and a delete of `k` leave every slot of another
index than `hash k` as it was, a get of `k` leaves the whole store as it was,
and so a get of a key of another index gives the same status and the same value
before and after each of the three operations. -/
theorem one_slot_frame (s : kv_store_t) (k v out : List Nat) :
    (∀ i, i ≠ hash k →
        (kv_store_put s k v).2 i = s i ∧ (kv_store_delete s k).2 i = s i) ∧
      (kv_store_get s k out).2.1 = s ∧
      ∀ k2 out2, hash k2 ≠ hash k →
        ((kv_store_get (kv_store_put s k v).2 k2 out2).1 = (kv_store_get s k2 out2).1 ∧
          (kv_store_get (kv_store_put s k v).2 k2 out2).2.2 = (kv_store_get s k2 out2).2.2) ∧
        ((kv_store_get (kv_store_delete s k).2 k2 out2).1 = (kv_store_get s k2 out2).1 ∧
          (kv_store_get (kv_store_delete s k).2 k2 out2).2.2
            = (kv_store_get s k2 out2).2.2) ∧
        ((kv_store_get (kv_store_get s k out).2.1 k2 out2).1 = (kv_store_get s k2 out2).1 ∧
          (kv_store_get (kv_store_get s k out).2.1 k2 out2).2.2
            = (kv_store_get s k2 out2).2.2) := by
  have hput : ∀ i, i ≠ hash k → (kv_store_put s k v).2 i = s i := by
    intro i hi
    unfold kv_store_put
    split
    · rfl
    · simp only [Function.update_noteq hi]
  have hdel : ∀ i, i ≠ hash k → (kv_store_delete s k).2 i = s i := by
    intro i hi
    unfold kv_store_delete
    simp only
    split
    · rfl
    · simp only [Function.update_noteq hi]
  have hget : (kv_store_get s k out).2.1 = s := by
    unfold kv_store_get
    simp only
    split <;> rfl
  refine ⟨fun i hi => ⟨hput i hi, hdel i hi⟩, hget, fun k2 out2 h2 => ⟨?_, ?_, ?_⟩⟩
  · exact kv_store_get_congr _ _ k2 out2 (hput _ h2)
  · exact kv_store_get_congr _ _ k2 out2 (hdel _ h2)
  · rw [hget]
    exact ⟨rfl, rfl⟩

/-- Witness of C10: a put, a delete and a get of "a" (index 97) seen from the
key "b" (index 98), stored before. -/
theorem one_slot_frame_witness :
    hash [98] ≠ hash [97] ∧
      (kv_store_get (kv_store_put (kv_store_put emptyStore [98] [50]).2 [97] [49]).2
          [98] []).1 = (kv_store_get (kv_store_put emptyStore [98] [50]).2 [98] []).1 ∧
      (kv_store_get (kv_store_put (kv_store_put emptyStore [98] [50]).2 [97] [49]).2
          [98] []).2.2 = (kv_store_get (kv_store_put emptyStore [98] [50]).2 [98] []).2.2 :=
  ⟨by decide,
    ((one_slot_frame (kv_store_put emptyStore [98] [50]).2 [97] [49] []).2.2 [98] []
      (by decide)).1⟩

/-! ## The claims on the snapshot file -/

/-- C6 (snapshot round-trip).  For every store reached from the empty store by
puts of keys of fewer than 31 bytes without comma or newline and of values of
fewer than 255 bytes without newline, and by deletes, the store loaded into
an empty store from the text that `kv_store_save` writes gives, for every key,
the status and the value that the saved store gives, whatever the local arrays
of the load held. -/
theorem snapshot_roundtrip (ops : List Op) (hops : ∀ op ∈ ops, snapshotSafe op = true)
    (kb vb k out : List Nat) :
    (kv_store_get
        (kv_store_load emptyStore (some (kv_store_save (applyOps emptyStore ops))) kb vb)
        k out).1 = (kv_store_get (applyOps emptyStore ops) k out).1 ∧
      (kv_store_get
        (kv_store_load emptyStore (some (kv_store_save (applyOps emptyStore ops))) kb vb)
        k out).2.2 = (kv_store_get (applyOps emptyStore ops) k out).2.2 :=
  load_save_get _ (applyOps_snapInv ops emptyStore emptyStore_snapInv hops) kb vb k out

/-- Witness of C6: puts of "a", "b" and "!b" (which has the index of "a") and a
delete of "b", seen from the key "!b". -/
theorem snapshot_roundtrip_witness :
    (∀ op ∈ [Op.put [97] [49], Op.put [98] [50], Op.put [33, 98] [51], Op.delete [98]],
        snapshotSafe op = true) ∧
      (kv_store_get
        (kv_store_load emptyStore
          (some (kv_store_save (applyOps emptyStore
            [Op.put [97] [49], Op.put [98] [50], Op.put [33, 98] [51], Op.delete [98]])))
          [] [])
        [33, 98] []).1
      = (kv_store_get (applyOps emptyStore
            [Op.put [97] [49], Op.put [98] [50], Op.put [33, 98] [51], Op.delete [98]])
          [33, 98] []).1 :=
  ⟨by decide, (snapshot_roundtrip _ (by decide) [] [] [33, 98] []).1⟩

/-- C9, as stated, fails: the value "x,y" put under the key "a" on the empty
store comes back from the save and the load, and the get of "a" on the loaded
store returns `KV_SUCCESS` with the value "x,y". -/
theorem comma_value_survives :
    44 ∈ [120, 44, 121] ∧
      (kv_store_get
        (kv_store_load emptyStore
          (some (kv_store_save (kv_store_put emptyStore [97] [120, 44, 121]).2)) [] [])
        [97] []).1 = KV_SUCCESS ∧
      cstr (kv_store_get
        (kv_store_load emptyStore
          (some (kv_store_save (kv_store_put emptyStore [97] [120, 44, 121]).2)) [] [])
        [97] []).2.2 = [120, 44, 121] :=
  ⟨by decide,
    put_save_load_get [97] [120, 44, 121] [] [] [] (by decide) (by decide) (by decide)
      (by decide) (by decide)⟩

/-- C9, amended.  For every key of fewer than 31 bytes without comma or newline
and every value of fewer than 255 bytes without newline, with or without
commas, after a put on the empty store, a save and a load of the text into an
empty store, the get of the key returns `KV_SUCCESS` with the value. -/
theorem comma_value_roundtrip (k v kb vb out : List Nat)
    (hk : strlen k < 31) (hkc : 44 ∉ cstr k) (hkn : 10 ∉ cstr k)
    (hv : strlen v < 255) (hvn : 10 ∉ cstr v) :
    (kv_store_get
        (kv_store_load emptyStore (some (kv_store_save (kv_store_put emptyStore k v).2)) kb vb)
        k out).1 = KV_SUCCESS ∧
      cstr (kv_store_get
        (kv_store_load emptyStore (some (kv_store_save (kv_store_put emptyStore k v).2)) kb vb)
        k out).2.2 = cstr v :=
  put_save_load_get k v kb vb out hk hkc hkn hv hvn

/-- Witness of C9 amended: the key "k" and the value "1,2,3". -/
theorem comma_value_roundtrip_witness :
    44 ∈ cstr [49, 44, 50, 44, 51] ∧
      (kv_store_get
        (kv_store_load emptyStore
          (some (kv_store_save (kv_store_put emptyStore [107] [49, 44, 50, 44, 51]).2)) [] [])
        [107] []).1 = KV_SUCCESS ∧
      cstr (kv_store_get
        (kv_store_load emptyStore
          (some (kv_store_save (kv_store_put emptyStore [107] [49, 44, 50, 44, 51]).2)) [] [])
        [107] []).2.2 = cstr [49, 44, 50, 44, 51] :=
  ⟨by decide,
    comma_value_roundtrip [107] [49, 44, 50, 44, 51] [] [] [] (by decide) (by decide)
      (by decide) (by decide) (by decide)⟩

/-! ## The claims on the worker and on the client -/

/-- What the worker does on a GET frame, for every store and every content of
its local array: it sends the status of `kv_store_get`, then the 256 bytes of
the local array exactly when the status is `KV_SUCCESS`; the store is
unchanged; and when the stored value is shorter than 255 bytes the bytes sent
hold it as a C string. -/
theorem dispatch_get (s : kv_store_t) (m : kv_message_t) (value : List Nat)
    (hm : m.type = MSG_GET) :
    (dispatch s m value).1 = s ∧
      (dispatch s m value).2.2 =
        (if (kv_store_get s m.key value).1 = KV_SUCCESS then
          [Sent.status KV_SUCCESS,
            Sent.buffer ((kv_store_get s m.key value).2.2.take MAX_VALUE_SIZE)]
        else [Sent.status (kv_store_get s m.key value).1]) ∧
      ((kv_store_get s m.key value).1 = KV_SUCCESS →
        strlen (s (hash m.key)).value < MAX_VALUE_SIZE - 1 →
        cstr ((kv_store_get s m.key value).2.2.take MAX_VALUE_SIZE)
          = cstr (s (hash m.key)).value) := by
  have hne : ¬ (m.type = MSG_PUT) := by rw [hm]; decide
  have hst : (kv_store_get s m.key value).2.1 = s := by
    unfold kv_store_get
    simp only
    split <;> rfl
  refine ⟨?_, ?_, ?_⟩
  · unfold dispatch
    rw [if_neg hne, if_pos hm]
    simp only
    split <;> exact hst
  · unfold dispatch
    rw [if_neg hne, if_pos hm]
    simp only
    split
    · rename_i h
      rw [h]
    · rfl
  · intro hok hlen
    have hv : (kv_store_get s m.key value).2.2
        = strncpy value (s (hash m.key)).value (MAX_VALUE_SIZE - 1) := by
      revert hok
      unfold kv_store_get
      simp only
      split
      · intro h; cases h
      · intro _; rfl
    rw [hv, strncpy_of_lt _ _ _ hlen]
    have hl : strlen (s (hash m.key)).value + 1 ≤ MAX_VALUE_SIZE := by omega
    unfold strlen at hl
    rw [List.take_append_eq_append_take, List.take_of_length_le (by omega)]
    have h1 : MAX_VALUE_SIZE - (cstr (s (hash m.key)).value).length
        = (MAX_VALUE_SIZE - (cstr (s (hash m.key)).value).length - 1) + 1 := by omega
    rw [h1, List.take_succ_cons]
    exact cstr_append_zero (cstr_ne_zero _) _

set_option maxRecDepth 100000 in
/-- C7 at its failing input.  The worker stores the 255-byte value of a PUT
frame as the client builds it, then serves a GET of the key with a local
array whose last byte is not NUL: it sends `KV_SUCCESS` and 256 bytes without
any NUL, so the bytes sent up to the first NUL are not the stored value. -/
theorem dispatch_get_unterminated :
    (dispatch
        (dispatch emptyStore
          ⟨MSG_PUT, 107 :: List.replicate 31 0, List.replicate 255 120 ++ [0]⟩ []).1
        ⟨MSG_GET, 107 :: List.replicate 31 0, List.replicate 256 0⟩
        (List.replicate 256 1)).2.2
      = [Sent.status KV_SUCCESS, Sent.buffer (List.replicate 255 120 ++ [1])] ∧
    cstr ((dispatch emptyStore
          ⟨MSG_PUT, 107 :: List.replicate 31 0, List.replicate 255 120 ++ [0]⟩ []).1
        (hash (107 :: List.replicate 31 0))).value = List.replicate 255 120 ∧
    cstr (List.replicate 255 120 ++ [1]) ≠ List.replicate 255 120 := by
  decide

/-- The transfers that the client does check: on a connected client a short
write of the frame or a short read of the status gives `KV_ERROR_NETWORK` in
each of the three operations, and so does a value read that returns zero or
less in `kv_client_get`. -/
theorem client_short_transfer (c : kv_client_t) (key value : List Nat) (msg : kv_message_t)
    (net : Transfers) (hc : c.is_connected = true) :
    ((net.sendRet ≠ sizeof_kv_message_t ∨ net.statusRet ≠ sizeof_kv_error_t) →
        (kv_client_put c key value msg net).1 = KV_ERROR_NETWORK ∧
        (kv_client_get c key value msg net).1 = KV_ERROR_NETWORK ∧
        (kv_client_delete c key msg net).1 = KV_ERROR_NETWORK) ∧
      (net.sendRet = sizeof_kv_message_t → net.statusRet = sizeof_kv_error_t →
        net.result = KV_SUCCESS → net.valueRet ≤ 0 →
        (kv_client_get c key value msg net).1 = KV_ERROR_NETWORK) := by
  constructor
  · intro h
    unfold kv_client_put kv_client_get kv_client_delete
    simp only [hc]
    by_cases h1 : net.sendRet = sizeof_kv_message_t
    · have h2 : net.statusRet ≠ sizeof_kv_error_t := by
        rcases h with h | h
        · exact absurd h1 h
        · exact h
      simp [h1, h2]
    · simp [h1]
  · intro h1 h2 h3 h4
    unfold kv_client_get
    simp [hc, h1, h2, h3, h4]

/-- C8 at its failing input.  On a connected client whose frame write and
status read are complete and whose status is `KV_SUCCESS`, a value read that
transfers 100 bytes of the 256 requested makes `kv_client_get` return
`KV_SUCCESS`, not `KV_ERROR_NETWORK`: the code tests `recv(...) <= 0` there. -/
theorem client_get_short_value :
    (100 : Int) < MAX_VALUE_SIZE ∧
      (kv_client_get ⟨3, true⟩ [107] (List.replicate 256 0)
        ⟨0, List.replicate 32 0, List.replicate 256 0⟩
        ⟨sizeof_kv_message_t, sizeof_kv_error_t, KV_SUCCESS, 100, List.replicate 100 120⟩).1
        = KV_SUCCESS := by
  decide

/-! ## The claim on the hash -/

/-- C11 (hash definition).  For every key whose bytes are all in 1..127, of any
length, the value of `hash`, computed with the wrap-around at `2 ^ 32` and then
reduced modulo 1024, is the sum of `b_i * 31 ^ (n - 1 - i)` over the unbounded
naturals reduced modulo 1024; and it is below `TABLE_SIZE`, which is 1024. -/
theorem hash_is_polynomial (key : List Nat) (hb : ∀ b ∈ key, 1 ≤ b ∧ b ≤ 127) :
    hashVal key = polySum key % 1024 ∧ (hash key).val = polySum key % 1024 ∧
      hashVal key < TABLE_SIZE ∧ TABLE_SIZE = 1024 := by
  have h := hashLoop_mod key 0 hb
  rw [Nat.zero_mul, Nat.zero_add] at h
  have hv : hashVal key = polySum key % 1024 := h
  exact ⟨hv, hv, (hash key).isLt, rfl⟩

/-- Witness of C11: the key "!b", whose sum is 33 * 31 + 98 = 1121, of index 97. -/
theorem hash_is_polynomial_witness :
    (∀ b ∈ [33, 98], 1 ≤ b ∧ b ≤ 127) ∧ polySum [33, 98] = 1121 ∧
      hashVal [33, 98] = polySum [33, 98] % 1024 ∧
      (hash [33, 98]).val = polySum [33, 98] % 1024 ∧
      hashVal [33, 98] < TABLE_SIZE ∧ TABLE_SIZE = 1024 :=
  ⟨by decide, by decide, hash_is_polynomial [33, 98] (by decide)⟩

/-! ## The claim on the slots -/

/-- C13 (slot invariant).  In every store reached from the empty store by puts,
gets and deletes, an occupied slot of index `i` has a key array of 32 bytes that
holds a C string of at most 31 bytes (so a NUL is inside the array) whose hash
is `i`, and a value array of 256 bytes that holds a C string of at most 255
bytes. -/
theorem slot_invariant (calls : List Call) (i : Fin TABLE_SIZE)
    (ho : ((applyCalls emptyStore calls) i).is_occupied = true) :
    ((applyCalls emptyStore calls) i).key.length = MAX_KEY_SIZE ∧
      strlen ((applyCalls emptyStore calls) i).key ≤ 31 ∧
      hash ((applyCalls emptyStore calls) i).key = i ∧
      ((applyCalls emptyStore calls) i).value.length = MAX_VALUE_SIZE ∧
      strlen ((applyCalls emptyStore calls) i).value ≤ 255 := by
  obtain ⟨hwf, hown⟩ := applyCalls_inv calls emptyStore emptyStore_wf
    (fun j hj => by simp [emptyStore] at hj)
  obtain ⟨hk, hv⟩ := hwf i
  obtain ⟨k1, k2⟩ := strlen_le_of_drop _ _ hk
  obtain ⟨v1, v2⟩ := strlen_le_of_drop _ _ hv
  exact ⟨k1, k2, hown i ho, v1, v2⟩

/-- Witness of C13: the slot of "!b" after puts of "a" and of "!b" (same index),
a get, a put of a key of 31 bytes and a delete of it. -/
theorem slot_invariant_witness :
    ((applyCalls emptyStore
        [Call.put [97] [49], Call.get [97] [], Call.put [33, 98] [50],
          Call.put (List.replicate 31 120) [51], Call.delete (List.replicate 31 120)])
        (hash [33, 98])).is_occupied = true ∧
      ((applyCalls emptyStore
        [Call.put [97] [49], Call.get [97] [], Call.put [33, 98] [50],
          Call.put (List.replicate 31 120) [51], Call.delete (List.replicate 31 120)])
        (hash [33, 98])).key.length = MAX_KEY_SIZE ∧
      strlen ((applyCalls emptyStore
        [Call.put [97] [49], Call.get [97] [], Call.put [33, 98] [50],
          Call.put (List.replicate 31 120) [51], Call.delete (List.replicate 31 120)])
        (hash [33, 98])).key ≤ 31 ∧
      hash ((applyCalls emptyStore
        [Call.put [97] [49], Call.get [97] [], Call.put [33, 98] [50],
          Call.put (List.replicate 31 120) [51], Call.delete (List.replicate 31 120)])
        (hash [33, 98])).key = hash [33, 98] ∧
      ((applyCalls emptyStore
        [Call.put [97] [49], Call.get [97] [], Call.put [33, 98] [50],
          Call.put (List.replicate 31 120) [51], Call.delete (List.replicate 31 120)])
        (hash [33, 98])).value.length = MAX_VALUE_SIZE ∧
      strlen ((applyCalls emptyStore
        [Call.put [97] [49], Call.get [97] [], Call.put [33, 98] [50],
          Call.put (List.replicate 31 120) [51], Call.delete (List.replicate 31 120)])
        (hash [33, 98])).value ≤ 255 :=
  ⟨by decide, slot_invariant _ (hash [33, 98]) (by decide)⟩

/-! ## The claim on the keys cut by the client -/

/-- C14 (client-side key truncation).  For keys of 32 bytes or more, on a
connected client and a store with terminated arrays: the key array of the frame
of `kv_client_put` is the first 31 bytes of the key and a NUL; the worker's PUT
dispatch on that frame sends `KV_SUCCESS`; two keys with the same first 31 bytes
give frames with the same key; and after a put of the first key and then a put
of the second with a value of at most 255 bytes, `kv_client_get` of either key
returns `KV_SUCCESS` with the second value. -/
theorem client_key_truncation (s : kv_store_t) (hs : StoreWF s) (c : kv_client_t)
    (hc : c.is_connected = true) (m1 m2 m3 : kv_message_t) (hm1 : FrameSized m1)
    (hm2 : FrameSized m2) (hm3 : FrameSized m3) (w1 w2 w3 : List Nat)
    (hw3 : w3.length = MAX_VALUE_SIZE) (k1 k2 v1 v2 out : List Nat)
    (h1 : 32 ≤ strlen k1) (h2 : 32 ≤ strlen k2)
    (hp : (cstr k1).take 31 = (cstr k2).take 31) (hv2 : strlen v2 ≤ 255) :
    (kv_client_put_msg m1 k1 v1).key = (cstr k1).take 31 ++ [0] ∧
      (dispatch s (kv_client_put_msg m1 k1 v1) w1).2.2 = [Sent.status KV_SUCCESS] ∧
      (remote_put s c k1 v1 m1 w1).1 = KV_SUCCESS ∧
      (kv_client_put_msg m1 k1 v1).key = (kv_client_put_msg m2 k2 v2).key ∧
      (remote_put (remote_put s c k1 v1 m1 w1).2 c k2 v2 m2 w2).1 = KV_SUCCESS ∧
      (remote_get (remote_put (remote_put s c k1 v1 m1 w1).2 c k2 v2 m2 w2).2
          c k1 out m3 w3).1 = KV_SUCCESS ∧
      cstr (remote_get (remote_put (remote_put s c k1 v1 m1 w1).2 c k2 v2 m2 w2).2
          c k1 out m3 w3).2 = cstr v2 ∧
      (remote_get (remote_put (remote_put s c k1 v1 m1 w1).2 c k2 v2 m2 w2).2
          c k2 out m3 w3).1 = KV_SUCCESS ∧
      cstr (remote_get (remote_put (remote_put s c k1 v1 m1 w1).2 c k2 v2 m2 w2).2
          c k2 out m3 w3).2 = cstr v2 := by
  have h1' : 31 ≤ strlen k1 := by omega
  have h2' : 31 ≤ strlen k2 := by omega
  have hk1 := put_msg_key m1 hm1 k1 v1 h1'
  have hk2 := put_msg_key m2 hm2 k2 v2 h2'
  have hst : (kv_store_put s (kv_client_put_msg m1 k1 v1).key
      (kv_client_put_msg m1 k1 v1).value).1 = KV_SUCCESS := by
    rw [kv_store_put_status, hk1, (cstr_first_bytes k1 h1').2]
    decide
  have r1 := remote_put_eq s c hc m1 hm1 w1 k1 v1 h1'
  rw [hp] at r1
  have r2 := remote_put_eq (kv_store_put s ((cstr k2).take 31) ((cstr v1).take 255)).2 c hc
    m2 hm2 w2 k2 v2 h2'
  have hwf1 := kv_store_put_wf s ((cstr k2).take 31) ((cstr v1).take 255) hs
  have hp0 : ∀ x ∈ (cstr k2).take 31, x ≠ 0 :=
    fun x hx => cstr_ne_zero k2 x (List.mem_of_mem_take hx)
  have hv0 : cstr ((cstr v2).take 255) = cstr v2 := by
    unfold strlen at hv2
    rw [List.take_of_length_le hv2, cstr_idem]
  have hvl : strlen ((cstr v2).take 255) ≤ 255 := by
    unfold strlen
    rw [hv0]
    exact hv2
  obtain ⟨s1, s2, s3⟩ := put_short_key_slot _ hwf1 ((cstr k2).take 31) ((cstr v2).take 255) hp0
    (by rw [List.length_take]; omega) hvl
  have hwf2 := kv_store_put_wf _ ((cstr k2).take 31) ((cstr v2).take 255) hwf1
  rw [r1]
  simp only
  rw [r2]
  simp only
  have g2 := remote_get_eq _ hwf2 c hc m3 hm3 w3 hw3 k2 out h2' s1 s2
  have g1 := remote_get_eq _ hwf2 c hc m3 hm3 w3 hw3 k1 out h1' (by rw [hp]; exact s1)
    (by rw [hp]; exact s2)
  refine ⟨hk1, ?_, trivial, ?_, trivial, g1.1, ?_, g2.1, ?_⟩
  · rw [dispatch_put s _ w1 rfl, hst]
  · rw [hk1, hk2, hp]
  · rw [g1.2, hp, s3, hv0]
  · rw [g2.2, s3, hv0]

set_option maxRecDepth 100000 in
/-- Witness of C14: two keys of 32 and 33 bytes with the same first 31 bytes, on
the empty store; the get of the first key returns the value of the second. -/
theorem client_key_truncation_witness :
    32 ≤ strlen (List.replicate 31 97 ++ [98]) ∧
      32 ≤ strlen (List.replicate 31 97 ++ [99, 100]) ∧
      (cstr (List.replicate 31 97 ++ [98])).take 31
        = (cstr (List.replicate 31 97 ++ [99, 100])).take 31 ∧
      strlen [50] ≤ 255 ∧
      (kv_client_put_msg ⟨0, List.replicate 32 0, List.replicate 256 0⟩
          (List.replicate 31 97 ++ [98]) [49]).key
        = (cstr (List.replicate 31 97 ++ [98])).take 31 ++ [0] ∧
      (remote_get
          (remote_put
            (remote_put emptyStore ⟨3, true⟩ (List.replicate 31 97 ++ [98]) [49]
              ⟨0, List.replicate 32 0, List.replicate 256 0⟩ (List.replicate 256 7)).2
            ⟨3, true⟩ (List.replicate 31 97 ++ [99, 100]) [50]
            ⟨0, List.replicate 32 0, List.replicate 256 0⟩ (List.replicate 256 7)).2
          ⟨3, true⟩ (List.replicate 31 97 ++ [98]) []
          ⟨0, List.replicate 32 0, List.replicate 256 0⟩ (List.replicate 256 7)).1
        = KV_SUCCESS ∧
      cstr (remote_get
          (remote_put
            (remote_put emptyStore ⟨3, true⟩ (List.replicate 31 97 ++ [98]) [49]
              ⟨0, List.replicate 32 0, List.replicate 256 0⟩ (List.replicate 256 7)).2
            ⟨3, true⟩ (List.replicate 31 97 ++ [99, 100]) [50]
            ⟨0, List.replicate 32 0, List.replicate 256 0⟩ (List.replicate 256 7)).2
          ⟨3, true⟩ (List.replicate 31 97 ++ [98]) []
          ⟨0, List.replicate 32 0, List.replicate 256 0⟩ (List.replicate 256 7)).2
        = cstr [50] :=
  have h := client_key_truncation emptyStore emptyStore_wf ⟨3, true⟩ rfl
    ⟨0, List.replicate 32 0, List.replicate 256 0⟩
    ⟨0, List.replicate 32 0, List.replicate 256 0⟩
    ⟨0, List.replicate 32 0, List.replicate 256 0⟩
    ⟨by decide, by decide⟩ ⟨by decide, by decide⟩ ⟨by decide, by decide⟩
    (List.replicate 256 7) (List.replicate 256 7) (List.replicate 256 7) (by decide)
    (List.replicate 31 97 ++ [98]) (List.replicate 31 97 ++ [99, 100]) [49] [50] []
    (by decide) (by decide) (by decide) (by decide)
  ⟨by decide, by decide, by decide, by decide, h.1, h.2.2.2.2.2.1, h.2.2.2.2.2.2.1⟩

/-! ## The claim on the load of any snapshot text -/

/-- C12 (load is last-line-wins).  For every text without NUL byte in which each
line has no comma or has a key (before its first comma) of fewer than 31 bytes
and a value (after it) of fewer than 255 bytes, `kv_store_load` on the empty
store gives the store of the puts of the lines with a comma, in file order,
whatever its local arrays held.  So for a record followed only by lines whose
keys have other indices, the get of its key returns its value, and the get of
any other key of the same index, in particular of an earlier record, returns
`KV_ERROR_NOT_FOUND`. -/
theorem load_last_line_wins (text kb vb : List Nat) (h0 : ∀ c ∈ text, c ≠ 0)
    (hok : ∀ l ∈ splitLines text, lineOk l = true) :
    kv_store_load emptyStore (some text) kb vb = loadSpec emptyStore text ∧
      ∀ (pre post : List (List Nat)) (key val out : List Nat),
        splitLines text = pre ++ (key ++ 44 :: val) :: post → 44 ∉ key →
        (∀ l ∈ post, 44 ∈ l → hash (recordKey l) ≠ hash key) →
        (kv_store_get (kv_store_load emptyStore (some text) kb vb) key out).1 = KV_SUCCESS ∧
          cstr (kv_store_get (kv_store_load emptyStore (some text) kb vb) key out).2.2
            = cstr val ∧
          ∀ a, hash a = hash key → cstr a ≠ cstr key →
            (kv_store_get (kv_store_load emptyStore (some text) kb vb) a out).1
              = KV_ERROR_NOT_FOUND := by
  have hload : kv_store_load emptyStore (some text) kb vb = loadSpec emptyStore text :=
    loadLoop_spec text.length text (le_refl _) h0 hok emptyStore kb vb
  refine ⟨hload, ?_⟩
  intro pre post key val out hsplit hkc hpost
  rw [hload]
  unfold loadSpec
  rw [hsplit, List.foldl_append, List.foldl_cons]
  have hmem : 44 ∈ key ++ 44 :: val := by simp
  obtain ⟨hrk, hrv⟩ := record_of_split key val hkc
  have hlok := hok (key ++ 44 :: val) (by rw [hsplit]; simp)
  obtain ⟨_, _, _, _, hk1, hv1, hkl, hvl⟩ := record_parts _ hmem hlok
  rw [hrk] at hk1
  rw [hrv] at hv1
  subst hk1
  subst hv1
  have hput : putLine (pre.foldl putLine emptyStore) (key ++ 44 :: val)
      = (kv_store_put (pre.foldl putLine emptyStore) key val).2 := by
    unfold putLine
    rw [if_pos hmem, hrk, hrv]
  rw [hput]
  have hslot := foldl_putLine_other post (kv_store_put (pre.foldl putLine emptyStore) key val).2
    (hash key) hpost
  have hks : strlen key < 31 := Nat.lt_of_le_of_lt (strlen_le_length key) hkl
  have hvs : strlen val < 255 := Nat.lt_of_le_of_lt (strlen_le_length val) hvl
  obtain ⟨_, g1, g2⟩ := put_then_get (pre.foldl putLine emptyStore) key val out hks hvs
  obtain ⟨c1, c2⟩ := kv_store_get_congr _ (kv_store_put (pre.foldl putLine emptyStore) key val).2
    key out hslot
  refine ⟨by rw [c1, g1], by rw [c2, g2], ?_⟩
  intro a ha hne
  rw [kv_store_get_of_miss _ a out]
  right
  rw [ha, hslot, kv_store_put_of_lt _ key val (by unfold MAX_KEY_SIZE; omega)]
  simp only [Function.update_same]
  rw [cstr_strncpy_of_lt _ _ _ (by unfold MAX_KEY_SIZE; omega)]
  exact fun h => hne h.symm

/-- Witness of C12: the text of the lines "a,1", "xyz" and "!b,2", the last
without newline; "a" and "!b" have the index 97. -/
theorem load_last_line_wins_witness :
    (∀ c ∈ [97, 44, 49, 10, 120, 121, 122, 10, 33, 98, 44, 50], c ≠ 0) ∧
      (∀ l ∈ splitLines [97, 44, 49, 10, 120, 121, 122, 10, 33, 98, 44, 50],
        lineOk l = true) ∧
      splitLines [97, 44, 49, 10, 120, 121, 122, 10, 33, 98, 44, 50]
        = [[97, 44, 49], [120, 121, 122]] ++ ([33, 98] ++ 44 :: [50]) :: [] ∧
      kv_store_load emptyStore (some [97, 44, 49, 10, 120, 121, 122, 10, 33, 98, 44, 50]) [] []
        = loadSpec emptyStore [97, 44, 49, 10, 120, 121, 122, 10, 33, 98, 44, 50] ∧
      (kv_store_get
        (kv_store_load emptyStore (some [97, 44, 49, 10, 120, 121, 122, 10, 33, 98, 44, 50])
          [] []) [33, 98] []).1 = KV_SUCCESS ∧
      (kv_store_get
        (kv_store_load emptyStore (some [97, 44, 49, 10, 120, 121, 122, 10, 33, 98, 44, 50])
          [] []) [97] []).1 = KV_ERROR_NOT_FOUND :=
  have h := load_last_line_wins [97, 44, 49, 10, 120, 121, 122, 10, 33, 98, 44, 50] [] []
    (by decide) (by decide)
  have g := h.2 [[97, 44, 49], [120, 121, 122]] [] [33, 98] [50] [] (by decide) (by decide)
    (by decide)
  ⟨by decide, by decide, by decide, h.1, g.1, g.2.2 [97] (by decide) (by decide)⟩

end KvStore
